import Mathlib

/-!
# Verification of `tenpy/linalg/charges.pyx`

A shallow embedding of the charge-bookkeeping layer of the tenpy library
(`ChargeInfo`, `LegCharge`, `LegPipe` from `tenpy/linalg/charges.pyx`),
together with proofs and refutations of the specification's claims.

Modelling conventions:
* numpy integer arrays become `List Int` / `List (List Int)`; a "row" of a
  2D charge array is a `List Int`.
* Python's C-style truncating `%` (the Cython code is compiled with
  `cdivision(True)`) is modelled by `Int.tmod`; the code's explicit
  sign-correction (`if res < 0: res += q`) is translated literally.
* `raise` becomes an `Except String` result where error behaviour is part of
  a claim; object identity (`is`) degenerates to value equality.
* numpy advanced indexing `xs[idx]` with an in-range index list becomes
  `sel idx xs d` (a `getD`-based map); all uses in the translated code are
  in range for the valid inputs the theorems quantify over.
-/

/-- Row of a 2D charge array: one integer per conserved quantity. -/
abbrev Row := List Int

/-- `ChargeInfo` (charges.pyx, `cdef class ChargeInfo`): the nature of the
charge space.  `qnumber = len(mod)` is derived. -/
structure ChargeInfo where
  mod : List Int
  names : List String
  deriving DecidableEq, Repr

/-- `ChargeInfo.qnumber`: number of conserved charges (`len(mod)`). -/
def ChargeInfo.qnumber (ci : ChargeInfo) : Nat := ci.mod.length

/-- `ChargeInfo.test_sanity`: `names` matches `qnumber` and no modulus is
negative. -/
def ChargeInfo.test_sanity (ci : ChargeInfo) : Bool :=
  ci.names.length == ci.qnumber && ci.mod.all (fun q => 0 ≤ q)

/-- One component of `ChargeInfo._make_valid_1D`: if the modulus is 1 the
charge is unconstrained and returned unchanged; otherwise reduce with the
C truncating modulo and correct a negative remainder (the two branches of
the Cython loop body, translated literally). -/
def modAdjust (c q : Int) : Int :=
  if q = 1 then c
  else
    let r := Int.tmod c q
    if r < 0 then r + q else r

/-- `ChargeInfo._make_valid_1D`: take a 1D charge vector modulo `mod`,
componentwise. -/
def ChargeInfo.make_valid_1D (ci : ChargeInfo) (charges : Row) : Row :=
  (charges.zip ci.mod).map fun p => modAdjust p.1 p.2

/-- `ChargeInfo._make_valid_2D`: the same reduction applied to every entry of
a 2D charge array.  (The Cython code iterates column-major; entrywise the
computation is identical to reducing each row.) -/
def ChargeInfo.make_valid_2D (ci : ChargeInfo) (charges : List Row) : List Row :=
  charges.map ci.make_valid_1D

/-- `ChargeInfo.check_valid`: `True` iff every entry lies in `[0, mod)`
wherever `mod != 1`. -/
def ChargeInfo.check_valid (ci : ChargeInfo) (charges : List Row) : Bool :=
  charges.all fun r => (r.zip ci.mod).all fun p => p.2 == 1 || (0 ≤ p.1 && p.1 < p.2)

/-- `ChargeInfo.__eq__` (`_equal`): compare `mod` by value; compare `names`
only where both sides have a non-empty name. -/
def ChargeInfo.equal (a b : ChargeInfo) : Bool :=
  a.mod == b.mod &&
    (a.names.zip b.names).all fun p => p.2 == p.1 || p.1 == "" || p.2 == ""

-- ------------------------------------------------------------------
-- Arithmetic facts about `modAdjust`
-- ------------------------------------------------------------------

theorem tmod_gt_neg (c q : Int) (hq : 0 < q) : -q < Int.tmod c q := by
  have h : Int.tmod (-c) q = - Int.tmod c q := by
    rw [Int.tmod_def, Int.tmod_def, Int.neg_tdiv]; ring
  have h2 : Int.tmod (-c) q < q := Int.tmod_lt_of_pos (-c) hq
  omega

theorem modAdjust_eq_emod (c q : Int) (hq : 0 < q) (hq1 : q ≠ 1) :
    modAdjust c q = c % q := by
  unfold modAdjust
  rw [if_neg hq1]
  have htd : Int.tmod c q = c - q * c.tdiv q := Int.tmod_def c q
  have hemod : Int.tmod c q % q = c % q := by
    rw [htd, show c - q * c.tdiv q = c + (-c.tdiv q) * q by ring, Int.add_mul_emod_self]
  have hhi : Int.tmod c q < q := Int.tmod_lt_of_pos c hq
  have hlo : -q < Int.tmod c q := tmod_gt_neg c q hq
  by_cases h : Int.tmod c q < 0
  · rw [if_pos h]
    have h3 : (Int.tmod c q + q) % q = Int.tmod c q % q := by
      rw [show Int.tmod c q + q = Int.tmod c q + 1 * q by ring, Int.add_mul_emod_self]
    have h4 : (Int.tmod c q + q) % q = Int.tmod c q + q :=
      Int.emod_eq_of_lt (by omega) (by omega)
    rw [← hemod, ← h3]; exact h4.symm
  · rw [if_neg h, ← hemod, Int.emod_eq_of_lt (by omega) (by omega)]

theorem modAdjust_mem (c q : Int) (hq : 0 < q) (hq1 : q ≠ 1) :
    0 ≤ modAdjust c q ∧ modAdjust c q < q := by
  rw [modAdjust_eq_emod c q hq hq1]
  exact ⟨Int.emod_nonneg c (by omega), Int.emod_lt_of_pos c hq⟩

theorem modAdjust_idem (c q : Int) (hq : 1 ≤ q) :
    modAdjust (modAdjust c q) q = modAdjust c q := by
  by_cases h1 : q = 1
  · simp [modAdjust, h1]
  · have hq0 : 0 < q := by omega
    obtain ⟨hlo, hhi⟩ := modAdjust_mem c q hq0 h1
    rw [modAdjust_eq_emod _ q hq0 h1, Int.emod_eq_of_lt hlo hhi]

/-- Pairing of a reduced row with `mod` again hits the same componentwise
moduli: auxiliary fact for idempotence. -/
theorem zip_map_zip (f : Int → Int → Int) :
    ∀ (x m : List Int),
      ((x.zip m).map (fun p => f p.1 p.2)).zip m
        = (x.zip m).map (fun p => (f p.1 p.2, p.2))
  | [], _ => by simp
  | _ :: _, [] => by simp
  | a :: x, b :: m => by
    simp [zip_map_zip f x m]

theorem make_valid_1D_getD (ci : ChargeInfo) (x : Row) (j : Nat)
    (hx : j < x.length) (hm : j < ci.mod.length) :
    (ci.make_valid_1D x).getD j 0 = modAdjust (x.getD j 0) (ci.mod.getD j 0) := by
  unfold ChargeInfo.make_valid_1D
  have hlen : j < (x.zip ci.mod).length := by
    rw [List.length_zip]; omega
  rw [List.getD_eq_getElem?_getD, List.getElem?_map,
    List.getElem?_eq_getElem hlen]
  simp only [Option.map_some', Option.getD_some, List.getElem_zip]
  rw [List.getD_eq_getElem?_getD, List.getElem?_eq_getElem hx,
    List.getD_eq_getElem?_getD, List.getElem?_eq_getElem hm]
  rfl

theorem make_valid_1D_idem (ci : ChargeInfo) (hm : ∀ q ∈ ci.mod, 1 ≤ q) (x : Row) :
    ci.make_valid_1D (ci.make_valid_1D x) = ci.make_valid_1D x := by
  unfold ChargeInfo.make_valid_1D
  rw [zip_map_zip, List.map_map]
  apply List.map_congr_left
  intro p hp
  have : p.2 ∈ ci.mod := (List.of_mem_zip hp).2
  exact modAdjust_idem p.1 p.2 (hm p.2 this)

/-- C6: for every valid `ChargeInfo` (all moduli ≥ 1) and every charge vector
or matrix, `make_valid` is idempotent; components with modulus 1 pass through
unchanged (even when negative); components with modulus `m > 1` are reduced to
`[0, m)` by the mathematical (always non-negative) modulo. -/
theorem C6_make_valid_idem_and_reduction (ci : ChargeInfo)
    (hm : ∀ q ∈ ci.mod, 1 ≤ q) :
    (∀ x : Row, ci.make_valid_1D (ci.make_valid_1D x) = ci.make_valid_1D x) ∧
    (∀ xs : List Row, ci.make_valid_2D (ci.make_valid_2D xs) = ci.make_valid_2D xs) ∧
    (∀ (x : Row) (j : Nat), j < x.length → j < ci.mod.length →
      ci.mod.getD j 0 = 1 → (ci.make_valid_1D x).getD j 0 = x.getD j 0) ∧
    (∀ (x : Row) (j : Nat), j < x.length → j < ci.mod.length →
      1 < ci.mod.getD j 0 →
      (ci.make_valid_1D x).getD j 0 = x.getD j 0 % ci.mod.getD j 0 ∧
      0 ≤ (ci.make_valid_1D x).getD j 0 ∧
      (ci.make_valid_1D x).getD j 0 < ci.mod.getD j 0) := by
  refine ⟨make_valid_1D_idem ci hm, ?_, ?_, ?_⟩
  · intro xs
    unfold ChargeInfo.make_valid_2D
    rw [List.map_map]
    exact List.map_congr_left fun x _ => make_valid_1D_idem ci hm x
  · intro x j hx hmj h1
    rw [make_valid_1D_getD ci x j hx hmj, h1]
    simp [modAdjust]
  · intro x j hx hmj h1
    rw [make_valid_1D_getD ci x j hx hmj,
      modAdjust_eq_emod _ _ (by omega) (by omega)]
    exact ⟨rfl, Int.emod_nonneg _ (by omega), Int.emod_lt_of_pos _ (by omega)⟩

/-- Witness for C6 at a concrete `ChargeInfo` with moduli `[1, 3]`. -/
theorem C6_witness :
    (∀ q ∈ (ChargeInfo.mk [1, 3] ["a", "b"]).mod, 1 ≤ q) ∧
    (ChargeInfo.mk [1, 3] ["a", "b"]).make_valid_1D
        ((ChargeInfo.mk [1, 3] ["a", "b"]).make_valid_1D [-5, -5])
      = (ChargeInfo.mk [1, 3] ["a", "b"]).make_valid_1D [-5, -5] :=
  ⟨by decide, (C6_make_valid_idem_and_reduction (ChargeInfo.mk [1, 3] ["a", "b"])
      (by decide)).1 [-5, -5]⟩

-- ------------------------------------------------------------------
-- LegCharge
-- ------------------------------------------------------------------

/-- `LegCharge` (charges.pyx, `cdef class LegCharge`): block boundaries
(`slices`), one charge row per block (`charges`), orientation `qconj` and the
two status flags.  `ind_len = slices[-1]` and `block_number = len(charges)`
are stored attributes in the source, re-derived by every setter; here they
are modelled as derived functions. -/
structure LegCharge where
  chinfo : ChargeInfo
  slices : List Int
  charges : List Row
  qconj : Int
  sorted : Bool
  bunched : Bool
  deriving DecidableEq, Repr

/-- `LegCharge.ind_len = self.slices[-1]`. -/
def LegCharge.ind_len (l : LegCharge) : Int := l.slices.getLastD 0

/-- `LegCharge.block_number = self.charges.shape[0]`. -/
def LegCharge.block_number (l : LegCharge) : Nat := l.charges.length

/-- `LegCharge.test_sanity`: slices length/start, charge width, charges
reduced, `qconj ∈ {±1}`. -/
def LegCharge.test_sanity (l : LegCharge) : Bool :=
  l.slices.length == l.block_number + 1 &&
  l.slices.headD 1 == 0 &&
  l.charges.all (fun r => r.length == l.chinfo.qnumber) &&
  l.chinfo.check_valid l.charges &&
  (l.qconj == 1 || l.qconj == -1)

/-- Executable test that a list of integers is strictly increasing. -/
def chainLtB : List Int → Bool
  | [] => true
  | [_] => true
  | a :: b :: rest => decide (a < b) && chainLtB (b :: rest)

theorem chainLtB_iff : ∀ (sl : List Int), chainLtB sl = true ↔ sl.Chain' (· < ·)
  | [] => by simp [chainLtB]
  | [a] => by simp [chainLtB]
  | a :: b :: rest => by
    simp [chainLtB, List.chain'_cons, chainLtB_iff (b :: rest), and_comm]

/-- Data-model invariant of a well-formed leg (spec §3): `test_sanity` holds
and `slices` is strictly increasing ("strictly increasing integer sequence of
length B+1 starting at 0"). -/
def LegCharge.valid (l : LegCharge) : Prop :=
  l.test_sanity = true ∧ chainLtB l.slices = true

instance (l : LegCharge) : Decidable l.valid :=
  inferInstanceAs (Decidable (l.test_sanity = true ∧ chainLtB l.slices = true))

/-- `LegCharge.conj`: shallow copy with opposite `qconj` (shares storage). -/
def LegCharge.conj (l : LegCharge) : LegCharge := { l with qconj := -l.qconj }

/-- `LegCharge._get_block_sizes`: `slices[1:] - slices[:-1]`. -/
def LegCharge._get_block_sizes (l : LegCharge) : List Int :=
  List.zipWith (fun b a => b - a) l.slices.tail l.slices

/-- `LegCharge._set_charges`: replace `charges` (and the derived
`block_number`). -/
def LegCharge._set_charges (l : LegCharge) (cs : List Row) : LegCharge :=
  { l with charges := cs }

/-- `LegCharge._set_slices`: replace `slices` (and the derived `ind_len`). -/
def LegCharge._set_slices (l : LegCharge) (sl : List Int) : LegCharge :=
  { l with slices := sl }

/-- `np.append([0], np.cumsum(block_sizes))`. -/
def cumsum0 (xs : List Int) : List Int := xs.scanl (· + ·) 0

/-- `LegCharge._set_block_sizes`: set `slices` from a list of block sizes. -/
def LegCharge._set_block_sizes (l : LegCharge) (bs : List Int) : LegCharge :=
  l._set_slices (cumsum0 bs)

/-- `bisect.bisect(a, x)` on a sorted list: the insertion point after any
entries equal to `x` (number of elements `≤ x`), computed by the left-to-right
scan that agrees with the binary search on sorted input. -/
def bisectRight (a : List Int) (x : Int) : Nat :=
  match a with
  | [] => 0
  | s :: rest => if x < s then 0 else bisectRight rest x + 1

/-- `LegCharge.get_qindex`: resolve a (possibly negative, python-style) flat
index to `(qindex, index_within_block)`; the two `raise IndexError` branches
become `Except.error`. -/
def LegCharge.get_qindex (l : LegCharge) (flat_index : Int) :
    Except String (Nat × Int) :=
  if flat_index < 0 then
    let f := flat_index + l.ind_len
    if f < 0 then .error "flat index too negative"
    else
      let qind := bisectRight l.slices f - 1
      .ok (qind, f - l.slices.getD qind 0)
  else if flat_index > l.ind_len then .error "flat index too large"
  else
    let qind := bisectRight l.slices flat_index - 1
    .ok (qind, flat_index - l.slices.getD qind 0)

/-- `LegCharge.get_charge`: `charges[qindex] * qconj`. -/
def LegCharge.get_charge (l : LegCharge) (qindex : Nat) : Row :=
  (l.charges.getD qindex []).map (· * l.qconj)

-- ------------------------------------------------------------------
-- Facts about `bisectRight` on sorted slices
-- ------------------------------------------------------------------

theorem bisectRight_eq_countP (a : List Int) (x : Int)
    (h : a.Chain' (· ≤ ·)) : bisectRight a x = a.countP (fun s => s ≤ x) := by
  induction a with
  | nil => rfl
  | cons s rest ih =>
    by_cases hx : x < s
    · have hsx : ¬ (s ≤ x) := by omega
      have hrest : rest.countP (fun y => decide (y ≤ x)) = 0 := by
        apply List.countP_eq_zero.mpr
        intro y hy
        have hpw : List.Pairwise (· ≤ ·) (s :: rest) :=
          List.chain'_iff_pairwise.mp h
        have hsy : s ≤ y := List.rel_of_pairwise_cons hpw hy
        simp; omega
      simp [bisectRight, hx, List.countP_cons, hrest, hsx]
    · have hsx : s ≤ x := by omega
      simp [bisectRight, hx, List.countP_cons, ih h.tail, hsx]

/-- Locating a flat index by `bisect` on a strictly increasing slice list:
for `head ≤ x < last`, the result `k = bisect(slices, x)` satisfies
`1 ≤ k < length` and `slices[k-1] ≤ x < slices[k]`. -/
theorem bisectRight_locate :
    ∀ (a : List Int), a.Chain' (· < ·) → ∀ (x : Int),
      a ≠ [] → a.headD 0 ≤ x → x < a.getLastD 0 →
      1 ≤ bisectRight a x ∧ bisectRight a x < a.length ∧
        a.getD (bisectRight a x - 1) 0 ≤ x ∧ x < a.getD (bisectRight a x) 0
  | [], _, x, hne, _, _ => absurd rfl hne
  | [s], _, x, _, hhead, hlast => by
    simp only [List.headD_cons] at hhead
    have : ([s] : List Int).getLastD 0 = s := by simp
    rw [this] at hlast; omega
  | s :: t :: rest, hchain, x, _, hhead, hlast => by
    simp only [List.headD_cons] at hhead
    have hst : s < t := (List.chain'_cons.mp hchain).1
    have hchain' : (t :: rest).Chain' (· < ·) := (List.chain'_cons.mp hchain).2
    have hsx : ¬ (x < s) := not_lt.mpr hhead
    by_cases hx : x < t
    · have hb : bisectRight (s :: t :: rest) x = 1 := by
        simp [bisectRight, hx, hsx]
      rw [hb]
      refine ⟨le_refl 1, by simp, by simpa using hhead, ?_⟩
      have : (s :: t :: rest).getD 1 0 = t := rfl
      rw [this]; exact hx
    · push_neg at hx
      have hlast2 : (s :: t :: rest).getLastD 0 = (t :: rest).getLastD 0 := by
        rw [List.getLastD_eq_getLast?, List.getLastD_eq_getLast?,
          List.getLast?_cons_cons]
      rw [hlast2] at hlast
      obtain ⟨h1, h2, h3, h4⟩ :=
        bisectRight_locate (t :: rest) hchain' x (by simp) (by simpa using hx) hlast
      have htx : ¬ (x < t) := not_lt.mpr hx
      have hbs : bisectRight (s :: t :: rest) x = bisectRight (t :: rest) x + 1 := by
        simp [bisectRight, htx, hsx]
      have hlen : (s :: t :: rest).length = (t :: rest).length + 1 := by simp
      rw [hbs]
      refine ⟨by omega, by omega, ?_, ?_⟩
      · have heq : bisectRight (t :: rest) x + 1 - 1
            = (bisectRight (t :: rest) x - 1) + 1 := by omega
        rw [heq, List.getD_cons_succ]
        exact h3
      · rw [List.getD_cons_succ]
        exact h4

theorem headD_irrel {α : Type} (l : List α) (h : l ≠ []) (d d' : α) :
    l.headD d = l.headD d' := by
  cases l with
  | nil => exact absurd rfl h
  | cons a t => rfl

theorem block_sizes_telescope :
    ∀ (sl : List Int), sl ≠ [] →
      (List.zipWith (fun b a => b - a) sl.tail sl).sum
        = sl.getLastD 0 - sl.headD 0
  | [], h => absurd rfl h
  | [a], _ => by simp
  | a :: b :: rest, _ => by
    have ih := block_sizes_telescope (b :: rest) (by simp)
    have hlast : (a :: b :: rest).getLastD 0 = (b :: rest).getLastD 0 := by
      rw [List.getLastD_eq_getLast?, List.getLastD_eq_getLast?,
        List.getLast?_cons_cons]
    simp only [List.tail_cons, List.zipWith_cons_cons, List.sum_cons,
      List.headD_cons] at *
    rw [hlast]
    omega

/-- C9: for a valid `LegCharge`, the block sizes derived from `slices` sum to
`ind_len`, and `get_qindex` inverts flat-index reconstruction: for
`0 ≤ f < ind_len` it returns `(q, o)` with `slices[q] + o = f` and
`0 ≤ o < slices[q+1] - slices[q]`. -/
theorem C9_block_sizes_and_get_qindex (l : LegCharge) (hv : l.valid) :
    l._get_block_sizes.sum = l.ind_len ∧
    ∀ f : Int, 0 ≤ f → f < l.ind_len →
      ∃ q o, l.get_qindex f = .ok (q, o) ∧ q < l.block_number ∧
        l.slices.getD q 0 + o = f ∧ 0 ≤ o ∧
        o < l.slices.getD (q + 1) 0 - l.slices.getD q 0 := by
  obtain ⟨hs, hchainB⟩ := hv
  have hchain : l.slices.Chain' (· < ·) := (chainLtB_iff l.slices).mp hchainB
  unfold LegCharge.test_sanity at hs
  simp only [Bool.and_eq_true, beq_iff_eq, Bool.or_eq_true] at hs
  obtain ⟨⟨⟨⟨hlen, hhead⟩, _⟩, _⟩, _⟩ := hs
  have hne : l.slices ≠ [] := by
    intro h; rw [h] at hlen; simp at hlen
  have hhead0 : l.slices.headD 0 = 0 := by
    rw [headD_irrel l.slices hne 0 1]; exact hhead
  constructor
  · unfold LegCharge._get_block_sizes LegCharge.ind_len
    rw [block_sizes_telescope l.slices hne, hhead0]
    omega
  · intro f hf0 hflen
    have hnotneg : ¬ (f < 0) := by omega
    have hnotbig : ¬ (f > l.ind_len) := by omega
    have hlocate := bisectRight_locate l.slices hchain f hne
      (by rw [hhead0]; exact hf0) hflen
    obtain ⟨h1, h2, h3, h4⟩ := hlocate
    refine ⟨bisectRight l.slices f - 1, f - l.slices.getD (bisectRight l.slices f - 1) 0,
      ?_, ?_, ?_, ?_, ?_⟩
    · unfold LegCharge.get_qindex
      rw [if_neg hnotneg, if_neg hnotbig]
    · omega
    · omega
    · omega
    · have : bisectRight l.slices f - 1 + 1 = bisectRight l.slices f := by omega
      rw [this]
      omega

/-- Leg used for concrete evaluations: two blocks `[0,2)` and `[2,3)` with
charges `[[0],[1]]` over an unconstrained single charge. -/
def legA : LegCharge :=
  { chinfo := { mod := [1], names := [""] },
    slices := [0, 2, 3], charges := [[0], [1]],
    qconj := 1, sorted := false, bunched := false }

/-- Witness for C9 at the concrete leg `legA`. -/
theorem C9_witness :
    legA.valid ∧ legA._get_block_sizes.sum = legA.ind_len :=
  ⟨by decide, (C9_block_sizes_and_get_qindex legA (by decide)).1⟩

/-- C2 (refutation by evaluation): the claim says `get_qindex` errors exactly
outside `[-ind_len, ind_len)`, but at `flat_index = ind_len` (here `3`, which
is outside that interval) the code's branch `flat_index > self.ind_len` is not
taken: the call returns `(qindex, offset) = (block_number, 0)`, naming a block
that does not exist, instead of raising `IndexError`. -/
theorem C2_get_qindex_boundary_no_error :
    legA.ind_len = 3 ∧ legA.block_number = 2 ∧
    ¬ ((-3 : Int) ≤ 3 ∧ (3 : Int) < 3) ∧
    legA.get_qindex 3 = .ok (2, 0) :=
  ⟨by decide, by decide, by decide, rfl⟩

-- ------------------------------------------------------------------
-- test_equal / test_contractible (C7)
-- ------------------------------------------------------------------

/-- `charges * qconj`: scale every entry of the charge matrix. -/
def scaleCharges (s : Int) (cs : List Row) : List Row :=
  cs.map fun r => r.map (· * s)

/-- `LegCharge.test_equal`: raise unless same `ChargeInfo`, equal `slices` and
equal effective charges `charges * qconj`.  The source's fast path compares
storage identity (`is`); under value semantics it is the corresponding value
comparison. -/
def LegCharge.test_equal (a b : LegCharge) : Except String Unit :=
  if ¬ (ChargeInfo.equal a.chinfo b.chinfo = true) then
    .error "incompatible ChargeInfo"
  else if a.charges = b.charges ∧ a.qconj = b.qconj ∧ a.slices = b.slices then
    .ok ()  -- optimize: don't need to check all charges explicitly
  else if a.slices ≠ b.slices ∨
      scaleCharges a.qconj a.charges ≠ scaleCharges b.qconj b.charges then
    .error "incompatible LegCharge"
  else .ok ()

/-- `LegCharge.test_contractible`: just `self.test_equal(other.conj())`. -/
def LegCharge.test_contractible (a b : LegCharge) : Except String Unit :=
  a.test_equal b.conj

theorem conj_conj (l : LegCharge) : l.conj.conj = l := by
  cases l
  simp [LegCharge.conj]

theorem mem_zip_self {α : Type} : ∀ (l : List α) (p : α × α), p ∈ l.zip l → p.1 = p.2
  | [], p, h => by simp at h
  | a :: t, p, h => by
    rcases List.mem_cons.mp h with h | h
    · rw [h]
    · exact mem_zip_self t p h

theorem ChargeInfo.equal_refl (ci : ChargeInfo) : ChargeInfo.equal ci ci = true := by
  unfold ChargeInfo.equal
  simp only [beq_self_eq_true, Bool.true_and, List.all_eq_true]
  intro p hp
  have := mem_zip_self ci.names p hp
  simp [this]

/-- C7: `test_contractible` succeeds exactly when the two legs have equal
`ChargeInfo`, equal `slices` and opposite effective charges
(`self.charges*self.qconj = -(other.charges*other.qconj)`); it is literally
`test_equal` against `other.conj()`; and for any leg `A` it succeeds on
`B = A.conj()` (slices compared by value, not by storage). -/
theorem C7_test_contractible (a b : LegCharge) :
    (a.test_contractible b = a.test_equal b.conj) ∧
    (a.test_contractible b = .ok () ↔
      (ChargeInfo.equal a.chinfo b.chinfo = true ∧ a.slices = b.slices ∧
        scaleCharges a.qconj a.charges = scaleCharges (-b.qconj) b.charges)) ∧
    (a.test_contractible a.conj = .ok ()) := by
  refine ⟨rfl, ?_, ?_⟩
  · unfold LegCharge.test_contractible LegCharge.test_equal
    simp only [LegCharge.conj]
    constructor
    · intro h
      by_cases hci : ChargeInfo.equal a.chinfo b.chinfo = true
      · rw [if_neg (by simpa using hci)] at h
        by_cases hfast : a.charges = b.charges ∧ a.qconj = -b.qconj ∧ a.slices = b.slices
        · exact ⟨hci, hfast.2.2, by rw [hfast.1, hfast.2.1]⟩
        · rw [if_neg hfast] at h
          by_cases hbad : a.slices ≠ b.slices ∨
              scaleCharges a.qconj a.charges ≠ scaleCharges (-b.qconj) b.charges
          · rw [if_pos hbad] at h
            exact absurd h (by simp)
          · push_neg at hbad
            exact ⟨hci, hbad.1, hbad.2⟩
      · rw [if_pos (by simpa using hci)] at h
        exact absurd h (by simp)
    · rintro ⟨hci, hsl, hch⟩
      rw [if_neg (by simpa using hci)]
      by_cases hfast : a.charges = b.charges ∧ a.qconj = -b.qconj ∧ a.slices = b.slices
      · rw [if_pos hfast]
      · rw [if_neg hfast, if_neg (by push_neg; exact ⟨hsl, hch⟩)]
  · unfold LegCharge.test_contractible
    rw [conj_conj]
    unfold LegCharge.test_equal
    have hci : ChargeInfo.equal a.chinfo a.chinfo = true := ChargeInfo.equal_refl a.chinfo
    rw [if_neg (by simpa using hci), if_pos ⟨rfl, rfl, rfl⟩]

-- ------------------------------------------------------------------
-- Row differences, bunch, lexsort, sort
-- ------------------------------------------------------------------

/-- `_find_row_differences` / `_c_find_row_differences`: indices where the
rows of `cs` change, always including `0` and `len(cs)`.  (For a zero-column
array the source short-circuits to `[0, len]`, which coincides with this
formula since all zero-width rows are equal.) -/
def findRowDifferences (cs : List Row) : List Nat :=
  (0 :: (List.range (cs.length - 1)).filterMap fun i =>
      if cs.getD i [] ≠ cs.getD (i + 1) [] then some (i + 1) else none) ++ [cs.length]

/-- `LegCharge.is_bunched`: `bunch` would change nothing. -/
def LegCharge.is_bunched (l : LegCharge) : Bool :=
  (findRowDifferences l.charges).length == l.block_number + 1

/-- numpy advanced indexing `xs[is]` for an in-range index list. -/
def sel {α : Type} (is : List Nat) (xs : List α) (d : α) : List α :=
  is.map fun i => xs.getD i d

/-- `LegCharge.bunch`: merge contiguous blocks with equal charges; returns the
kept-row index list (with trailing sentinel `old_block_number`) and the new
leg.  Fast path when the `bunched` flag is set. -/
def LegCharge.bunch (l : LegCharge) : List Nat × LegCharge :=
  if l.bunched then (List.range (l.block_number + 1), l)
  else
    let idx := findRowDifferences l.charges
    (idx,
      { l with
        charges := sel idx.dropLast l.charges [],
        slices := sel idx l.slices 0,
        bunched := true })

/-- Strict lexicographic comparison of two integer lists, first entry most
significant. -/
def lexLtList : List Int → List Int → Bool
  | [], [] => false
  | [], _ :: _ => true
  | _ :: _, [] => false
  | a :: as, b :: bs => if a < b then true else if b < a then false else lexLtList as bs

/-- numpy's `lexsort` key order on the rows of `charges` when called as
`lexsort(charges.T)`: the *last* column is the primary key. -/
def rowRevLt (a b : Row) : Bool := lexLtList a.reverse b.reverse

/-- Insert an index into a sorted index list (helper of the argsort). -/
def insertIdx (lt : Nat → Nat → Bool) (i : Nat) : List Nat → List Nat
  | [] => [i]
  | j :: rest => if lt i j then i :: j :: rest else j :: insertIdx lt i rest

/-- Insertion sort for index lists (helper of the argsort). -/
def insSort (lt : Nat → Nat → Bool) : List Nat → List Nat
  | [] => []
  | i :: rest => insertIdx lt i (insSort lt rest)

/-- `tenpy.tools.misc.lexsort(charges.T)`: stable argsort of the rows of
`charges` under `rowRevLt` (ties keep the original order, realised here by the
index tie-break); `arange` when the array is empty (zero rows or columns). -/
def lexsortT (rows : List Row) (qnumber : Nat) : List Nat :=
  if qnumber == 0 || rows.length == 0 then List.range rows.length
  else
    insSort (fun i j =>
        rowRevLt (rows.getD i []) (rows.getD j []) ||
        (rows.getD i [] == rows.getD j [] && i < j))
      (List.range rows.length)

/-- `LegCharge.is_sorted`: `lexsort(self.charges.T)` is the identity. -/
def LegCharge.is_sorted (l : LegCharge) : Bool :=
  if l.chinfo.qnumber == 0 then true
  else lexsortT l.charges l.chinfo.qnumber == List.range l.block_number

/-- Slow path of `LegCharge.sort` up to the `bunch` decision: compute the
permutation, permute charges and block sizes, and mark `sorted`. -/
def LegCharge.sortSlow (l : LegCharge) : List Nat × LegCharge :=
  let perm_qind := lexsortT l.charges l.chinfo.qnumber
  let cp1 := l._set_charges (sel perm_qind l.charges [])
  let cp2 := cp1._set_block_sizes (sel perm_qind l._get_block_sizes 0)
  (perm_qind, { cp2 with sorted := true })

/-- `LegCharge.sort`: stable sort of the blocks by charges, returning the
qindex permutation and the sorted (and, if requested, bunched) copy; identity
fast path when the flags already guarantee the result. -/
def LegCharge.sort (l : LegCharge) (bunch : Bool) : List Nat × LegCharge :=
  if l.sorted && (!bunch || l.bunched) then (List.range l.block_number, l)
  else if bunch then (l.sortSlow.1, l.sortSlow.2.bunch.2)
  else (l.sortSlow.1, { l.sortSlow.2 with bunched := false })

theorem bunch_fast (l : LegCharge) (h : l.bunched = true) :
    l.bunch = (List.range (l.block_number + 1), l) := by
  unfold LegCharge.bunch
  rw [if_pos h]

theorem bunch_bunched (l : LegCharge) : l.bunch.2.bunched = true := by
  unfold LegCharge.bunch
  by_cases h : l.bunched = true
  · rw [if_pos h]; exact h
  · rw [if_neg h]

theorem bunch_sorted_flag (l : LegCharge) : l.bunch.2.sorted = l.sorted := by
  unfold LegCharge.bunch
  by_cases h : l.bunched = true
  · rw [if_pos h]
  · rw [if_neg h]

theorem sortSlow_sorted (l : LegCharge) : l.sortSlow.2.sorted = true := rfl

theorem sort_fast (l : LegCharge) (b : Bool)
    (h : (l.sorted && (!b || l.bunched)) = true) :
    l.sort b = (List.range l.block_number, l) := by
  unfold LegCharge.sort
  rw [if_pos h]

theorem sort_flags (l : LegCharge) (b : Bool) :
    (l.sort b).2.sorted = true ∧ (b = true → (l.sort b).2.bunched = true) := by
  by_cases hfast : (l.sorted && (!b || l.bunched)) = true
  · rw [sort_fast l b hfast]
    simp only [Bool.and_eq_true, Bool.or_eq_true, Bool.not_eq_true'] at hfast
    refine ⟨hfast.1, fun hb => ?_⟩
    rcases hfast.2 with h | h
    · rw [hb] at h; exact absurd h (by simp)
    · exact h
  · unfold LegCharge.sort
    rw [if_neg hfast]
    cases b with
    | true =>
      rw [if_pos rfl]
      exact ⟨by rw [bunch_sorted_flag, sortSlow_sorted], fun _ => bunch_bunched _⟩
    | false =>
      rw [if_neg (by simp)]
      exact ⟨sortSlow_sorted l, by simp⟩

/-- C8: `bunch` and `sort` are idempotent on the returned leg, and a leg whose
flags already certify the requested order is returned as-is by `sort`,
together with the identity permutation of its `block_number` qindices. -/
theorem C8_sort_bunch_idempotent (l : LegCharge) (b : Bool) :
    l.bunch.2.bunch.2 = l.bunch.2 ∧
    ((l.sort b).2.sort b).2 = (l.sort b).2 ∧
    (l.sorted = true → (b = true → l.bunched = true) →
      l.sort b = (List.range l.block_number, l)) := by
  refine ⟨?_, ?_, ?_⟩
  · rw [bunch_fast l.bunch.2 (bunch_bunched l)]
  · obtain ⟨hs, hb⟩ := sort_flags l b
    have hcond : ((l.sort b).2.sorted && (!b || (l.sort b).2.bunched)) = true := by
      rw [hs]
      cases b with
      | true => simp [hb rfl]
      | false => simp
    rw [sort_fast (l.sort b).2 b hcond]
  · intro hs hb
    apply sort_fast
    rw [hs]
    cases b with
    | true => simp [hb rfl]
    | false => simp

/-- Witness for C8's fast path at a sorted-and-bunched concrete leg. -/
theorem C8_witness :
    ({ legA with sorted := true, bunched := true } : LegCharge).sorted = true ∧
    ({ legA with sorted := true, bunched := true } : LegCharge).sort true
      = (List.range ({ legA with sorted := true, bunched := true } : LegCharge).block_number,
         { legA with sorted := true, bunched := true }) :=
  ⟨by decide,
    (C8_sort_bunch_idempotent { legA with sorted := true, bunched := true } true).2.2
      (by decide) (fun _ => by decide)⟩

-- ------------------------------------------------------------------
-- Run structure of `findRowDifferences`
-- ------------------------------------------------------------------

/-- Does a new run of equal rows begin at position `i`?  (`true` at `0` and
wherever row `i-1` differs from row `i`.) -/
def chgAt (cs : List Row) (i : Nat) : Bool :=
  i == 0 || decide (cs.getD (i - 1) [] ≠ cs.getD i [])

theorem filterMap_if_succ (p : Nat → Prop) [DecidablePred p] :
    ∀ (r : List Nat),
      r.filterMap (fun i => if p i then some (i + 1) else none)
        = (r.filter (fun i => decide (p i))).map (· + 1)
  | [] => rfl
  | i :: rest => by
    by_cases h : p i
    · simp [List.filterMap_cons, List.filter_cons, h, filterMap_if_succ p rest]
    · simp [List.filterMap_cons, List.filter_cons, h, filterMap_if_succ p rest]

/-- The kept rows `findRowDifferences cs |>.dropLast` are exactly the
positions where a new run begins. -/
theorem changePts_eq (cs : List Row) (hL : 1 ≤ cs.length) :
    (findRowDifferences cs).dropLast = (List.range cs.length).filter (chgAt cs) := by
  unfold findRowDifferences
  rw [List.dropLast_concat]
  obtain ⟨n, hn⟩ : ∃ n, cs.length = n + 1 := ⟨cs.length - 1, by omega⟩
  rw [hn, show n + 1 - 1 = n from rfl, List.range_succ_eq_map, List.filter_cons]
  rw [if_pos (by simp [chgAt])]
  congr 1
  rw [filterMap_if_succ, List.filter_map]
  have hfun : (fun (i : Nat) => i + 1) = Nat.succ := by funext i; rfl
  rw [hfun]
  congr 1

theorem countP_range_succ (p : Nat → Bool) (n : Nat) :
    (List.range (n + 1)).countP p
      = (List.range n).countP p + (if p n then 1 else 0) := by
  rw [List.range_succ, List.countP_append]
  simp [List.countP_cons]

theorem countP_range_mono (p : Nat → Bool) {m n : Nat} (h : m ≤ n) :
    (List.range m).countP p ≤ (List.range n).countP p := by
  rw [show n = m + (n - m) by omega, List.range_add, List.countP_append]
  omega

/-- The element of `(range L).filter p` at position `countP p (range q)` is
`q` itself, whenever `q < L` satisfies `p`. -/
theorem filterRank (p : Nat → Bool) (L q : Nat) (hq : q < L) (hp : p q = true) :
    ((List.range L).filter p).getD ((List.range q).countP p) 0 = q := by
  have hsplit : List.range L
      = (List.range q ++ [q]) ++ List.map (fun x => (q + 1) + x) (List.range (L - (q + 1))) := by
    rw [← List.range_succ, ← List.range_add]
    congr 1
    omega
  rw [hsplit, List.filter_append, List.filter_append, List.filter_cons,
    if_pos hp, List.filter_nil]
  have hlen : ((List.range q).filter p).length = (List.range q).countP p :=
    (List.countP_eq_length_filter p (List.range q)).symm
  rw [List.getD_eq_getElem?_getD, List.append_assoc, List.getElem?_append_right (by omega),
    hlen]
  simp

/-- Rows within one run are equal: looking up the run head of row `j` via the
rank of its run among the change points recovers row `j`. -/
theorem runs_aux (cs : List Row) :
    ∀ (j : Nat), j < cs.length →
      (sel ((List.range cs.length).filter (chgAt cs)) cs []).getD
          ((List.range (j + 1)).countP (chgAt cs) - 1) []
        = cs.getD j [] := by
  intro j
  induction j with
  | zero =>
    intro hj
    have h0 : chgAt cs 0 = true := by simp [chgAt]
    have hc : (List.range (0 + 1)).countP (chgAt cs) = 1 := by
      simp [List.countP_cons, h0, List.range_succ]
    rw [hc]
    have hrank : ((List.range cs.length).filter (chgAt cs)).getD 0 0 = 0 := by
      have := filterRank (chgAt cs) cs.length 0 hj h0
      simpa using this
    have hlen : 1 ≤ ((List.range cs.length).filter (chgAt cs)).length := by
      rw [← List.countP_eq_length_filter]
      have := countP_range_mono (chgAt cs) (show 0 + 1 ≤ cs.length by omega)
      rw [hc] at this
      omega
    unfold sel
    rw [List.getD_eq_getElem?_getD, List.getElem?_map,
      List.getElem?_eq_getElem (by omega)]
    simp only [Option.map_some', Option.getD_some]
    rw [← List.getD_eq_getElem ((List.range cs.length).filter (chgAt cs)) 0, hrank]
  | succ j ih =>
    intro hj
    by_cases hchg : chgAt cs (j + 1) = true
    · have hc : (List.range (j + 2)).countP (chgAt cs)
          = (List.range (j + 1)).countP (chgAt cs) + 1 := by
        rw [countP_range_succ, if_pos hchg]
      rw [hc, Nat.add_sub_cancel]
      have hrank := filterRank (chgAt cs) cs.length (j + 1) hj hchg
      have hlen : (List.range (j + 1)).countP (chgAt cs)
          < ((List.range cs.length).filter (chgAt cs)).length := by
        rw [← List.countP_eq_length_filter]
        have := countP_range_mono (chgAt cs) (show j + 2 ≤ cs.length by omega)
        omega
      unfold sel
      rw [List.getD_eq_getElem?_getD, List.getElem?_map,
        List.getElem?_eq_getElem hlen]
      simp only [Option.map_some', Option.getD_some]
      rw [← List.getD_eq_getElem ((List.range cs.length).filter (chgAt cs)) 0, hrank]
    · have heq : cs.getD j [] = cs.getD (j + 1) [] := by
        by_contra hne2
        apply hchg
        unfold chgAt
        rw [show j + 1 - 1 = j from rfl]
        simp only [Bool.or_eq_true, decide_eq_true_eq, beq_iff_eq]
        right
        exact hne2
      have hc : (List.range (j + 2)).countP (chgAt cs)
          = (List.range (j + 1)).countP (chgAt cs) := by
        rw [countP_range_succ, if_neg (by simpa using hchg)]
        omega
      rw [hc, ← heq]
      exact ih (by omega)

theorem countP_le_filter_eq (p : Nat → Bool) (L j : Nat) (hj : j < L) :
    ((List.range L).filter p).countP (fun i => i ≤ j)
      = (List.range (j + 1)).countP p := by
  rw [List.countP_filter]
  rw [show L = (j + 1) + (L - (j + 1)) by omega, List.range_add, List.countP_append]
  have h2 : (List.map (fun x => (j + 1) + x) (List.range (L - (j + 1)))).countP
      (fun a => decide (a ≤ j) && p a) = 0 := by
    apply List.countP_eq_zero.mpr
    intro a ha
    obtain ⟨x, hx, rfl⟩ := List.mem_map.mp ha
    simp
    intro h
    omega
  rw [h2, Nat.add_zero]
  apply List.countP_congr
  intro a ha
  have : a ≤ j := by
    have := List.mem_range.mp ha
    omega
  simp [this]

/-- Main run lemma: the charge kept for the run containing row `j` is row `j`
itself. -/
theorem runs_getD (cs : List Row) (j : Nat) (hj : j < cs.length) :
    (sel (findRowDifferences cs).dropLast cs []).getD
        (((findRowDifferences cs).dropLast.countP (fun i => i ≤ j)) - 1) []
      = cs.getD j [] := by
  have hL : 1 ≤ cs.length := by omega
  rw [changePts_eq cs hL, countP_le_filter_eq (chgAt cs) cs.length j hj]
  exact runs_aux cs j hj

theorem frd_eq_dropLast_concat (cs : List Row) :
    findRowDifferences cs = (findRowDifferences cs).dropLast ++ [cs.length] := by
  unfold findRowDifferences
  rw [List.dropLast_concat]

theorem frd_dropLast_pairwise (cs : List Row) (hL : 1 ≤ cs.length) :
    ((findRowDifferences cs).dropLast.Pairwise (· < ·)) ∧
    (∀ b ∈ (findRowDifferences cs).dropLast, b < cs.length) ∧
    (findRowDifferences cs).dropLast.headD 1 = 0 ∧
    (findRowDifferences cs).dropLast ≠ [] := by
  rw [changePts_eq cs hL]
  refine ⟨List.Pairwise.filter _ (List.pairwise_lt_range _), ?_, ?_, ?_⟩
  · intro b hb
    exact List.mem_range.mp (List.mem_of_mem_filter hb)
  · obtain ⟨n, hn⟩ : ∃ n, cs.length = n + 1 := ⟨cs.length - 1, by omega⟩
    rw [hn, List.range_succ_eq_map, List.filter_cons, if_pos (by simp [chgAt])]
    rfl
  · obtain ⟨n, hn⟩ : ∃ n, cs.length = n + 1 := ⟨cs.length - 1, by omega⟩
    rw [hn, List.range_succ_eq_map, List.filter_cons, if_pos (by simp [chgAt])]
    simp

theorem frd_pairwise (cs : List Row) (hL : 1 ≤ cs.length) :
    (findRowDifferences cs).Pairwise (· < ·) := by
  obtain ⟨h1, h2, _, _⟩ := frd_dropLast_pairwise cs hL
  rw [frd_eq_dropLast_concat cs]
  rw [List.pairwise_append]
  exact ⟨h1, List.pairwise_singleton _ _, fun a ha b hb => by
    rw [List.mem_singleton.mp hb]; exact h2 a ha⟩

theorem sel_getD {α : Type} (is : List Nat) (xs : List α) (d : α) (t : Nat)
    (ht : t < is.length) :
    (sel is xs d).getD t d = xs.getD (is.getD t 0) d := by
  unfold sel
  rw [List.getD_eq_getElem?_getD, List.getElem?_map, List.getElem?_eq_getElem ht]
  simp only [Option.map_some', Option.getD_some]
  rw [← List.getD_eq_getElem is 0]

theorem chain_lt_getD_lt {α : Type} [Preorder α] (sl : List α) (d : α)
    (h : sl.Pairwise (· < ·)) {i j : Nat} (hij : i < j) (hj : j < sl.length) :
    sl.getD i d < sl.getD j d := by
  have := List.pairwise_iff_get.mp h ⟨i, by omega⟩ ⟨j, hj⟩ hij
  rw [List.getD_eq_getElem sl d (by omega : i < sl.length),
    List.getD_eq_getElem sl d hj]
  simpa using this

theorem chain_lt_getD_le {α : Type} [Preorder α] (sl : List α) (d : α)
    (h : sl.Pairwise (· < ·)) {i j : Nat} (hij : i ≤ j) (hj : j < sl.length) :
    sl.getD i d ≤ sl.getD j d := by
  rcases Nat.lt_or_ge i j with hlt | hge
  · exact (chain_lt_getD_lt sl d h hlt hj).le
  · have : i = j := by omega
    rw [this]

-- ------------------------------------------------------------------
-- to_qflat (C10)
-- ------------------------------------------------------------------

/-- `LegCharge.to_qflat`: the per-flat-index charge table, built by filling
`charges[qi]` into the positions `slices[qi] .. slices[qi+1]`. -/
def LegCharge.to_qflat (l : LegCharge) : List Row :=
  (List.zipWith (fun (se : Int × Int) c => List.replicate (se.2 - se.1).toNat c)
    (l.slices.zip l.slices.tail) l.charges).flatten

/-- Recursive view of `to_qflat` over explicit slices and charges. -/
def qflatOf : List Int → List Row → List Row
  | a :: b :: rest, c :: cs => List.replicate (b - a).toNat c ++ qflatOf (b :: rest) cs
  | _, _ => []

theorem to_qflat_eq_qflatOf' :
    ∀ (sl : List Int) (cs : List Row),
      (List.zipWith (fun (se : Int × Int) c => List.replicate (se.2 - se.1).toNat c)
        (sl.zip sl.tail) cs).flatten = qflatOf sl cs
  | [], [] => rfl
  | [], _ :: _ => rfl
  | [_], [] => rfl
  | [_], _ :: _ => rfl
  | _ :: _ :: _, [] => rfl
  | a :: b :: rest, c :: cs => by
    have ih := to_qflat_eq_qflatOf' (b :: rest) cs
    simp only [List.tail_cons] at ih
    simp only [List.tail_cons, List.zip_cons_cons, List.zipWith_cons_cons,
      List.flatten_cons, qflatOf]
    rw [ih]

theorem to_qflat_eq_qflatOf (l : LegCharge) :
    l.to_qflat = qflatOf l.slices l.charges :=
  to_qflat_eq_qflatOf' l.slices l.charges

theorem chain_le_head_last :
    ∀ (sl : List Int), sl.Chain' (· ≤ ·) → sl ≠ [] →
      sl.headD 0 ≤ sl.getLastD 0
  | [a], _, _ => le_refl a
  | a :: b :: rest, h, _ => by
    have hab : a ≤ b := (List.chain'_cons.mp h).1
    have ih := chain_le_head_last (b :: rest) (List.chain'_cons.mp h).2 (by simp)
    have hlast : (a :: b :: rest).getLastD 0 = (b :: rest).getLastD 0 := by
      rw [List.getLastD_eq_getLast?, List.getLastD_eq_getLast?, List.getLast?_cons_cons]
    rw [hlast]
    simp only [List.headD_cons] at *
    omega

theorem qflatOf_length :
    ∀ (sl : List Int) (cs : List Row), sl.length = cs.length + 1 →
      sl.Chain' (· ≤ ·) →
      (qflatOf sl cs).length = (sl.getLastD 0 - sl.headD 0).toNat
  | [], cs, hlen, _ => by simp at hlen
  | [a], [], _, _ => by simp [qflatOf]
  | [a], _ :: _, hlen, _ => by simp at hlen
  | _ :: _ :: _, [], hlen, _ => by simp at hlen
  | a :: b :: rest, c :: cs, hlen, hch => by
    have ih := qflatOf_length (b :: rest) cs (by simpa using hlen)
      (List.chain'_cons.mp hch).2
    have hab : a ≤ b := (List.chain'_cons.mp hch).1
    have hbl : b ≤ (b :: rest).getLastD 0 :=
      chain_le_head_last (b :: rest) (List.chain'_cons.mp hch).2 (by simp)
    have hlast : (a :: b :: rest).getLastD 0 = (b :: rest).getLastD 0 := by
      rw [List.getLastD_eq_getLast?, List.getLastD_eq_getLast?, List.getLast?_cons_cons]
    show (List.replicate (b - a).toNat c ++ qflatOf (b :: rest) cs).length = _
    rw [List.length_append, List.length_replicate, ih, hlast]
    simp only [List.headD_cons] at *
    omega

theorem qflatOf_get :
    ∀ (sl : List Int) (cs : List Row), sl.length = cs.length + 1 →
      sl.Chain' (· < ·) → ∀ (n : Int), sl.headD 0 ≤ n → n < sl.getLastD 0 →
      (qflatOf sl cs).get? (n - sl.headD 0).toNat
        = some (cs.getD (bisectRight sl n - 1) [])
  | [], cs, hlen, _, n, _, _ => by simp at hlen
  | [a], [], _, _, n, hh, hl => by
    simp only [List.headD_cons] at hh
    have : ([a] : List Int).getLastD 0 = a := by simp
    rw [this] at hl
    omega
  | [a], _ :: _, hlen, _, n, _, _ => by simp at hlen
  | _ :: _ :: _, [], hlen, _, n, _, _ => by simp at hlen
  | a :: b :: rest, c :: cs, hlen, hch, n, hh, hl => by
    simp only [List.headD_cons] at hh
    have hab : a < b := (List.chain'_cons.mp hch).1
    have hch' : (b :: rest).Chain' (· < ·) := (List.chain'_cons.mp hch).2
    have hna : ¬ (n < a) := not_lt.mpr hh
    show (List.replicate (b - a).toNat c ++ qflatOf (b :: rest) cs).get? (n - a).toNat
        = _
    by_cases hn : n < b
    · have hidx : (n - a).toNat < (b - a).toNat := by omega
      rw [List.get?_eq_getElem?, List.getElem?_append_left
          (by rwa [List.length_replicate]), List.getElem?_replicate, if_pos hidx]
      have hbs : bisectRight (a :: b :: rest) n = 1 := by
        simp [bisectRight, hna, hn]
      rw [hbs]
      rfl
    · push_neg at hn
      have hlast : (a :: b :: rest).getLastD 0 = (b :: rest).getLastD 0 := by
        rw [List.getLastD_eq_getLast?, List.getLastD_eq_getLast?, List.getLast?_cons_cons]
      rw [hlast] at hl
      have ih := qflatOf_get (b :: rest) cs (by simpa using hlen) hch' n
        (by simpa using hn) hl
      simp only [List.headD_cons] at ih
      rw [List.get?_eq_getElem?, List.getElem?_append_right
          (by rw [List.length_replicate]; omega)]
      rw [List.length_replicate,
        show (n - a).toNat - (b - a).toNat = (n - b).toNat by omega]
      rw [← List.get?_eq_getElem?, ih]
      have hb1 : 1 ≤ bisectRight (b :: rest) n := by
        have : ¬ (n < b) := not_lt.mpr hn
        simp [bisectRight, this]
      have hbs : bisectRight (a :: b :: rest) n = bisectRight (b :: rest) n + 1 := by
        simp [bisectRight, hna]
      rw [hbs, Nat.add_sub_cancel,
        show bisectRight (b :: rest) n = (bisectRight (b :: rest) n - 1) + 1 by omega,
        List.getD_cons_succ]
      rfl

theorem getLastD_eq_getD {α : Type} (l : List α) (d : α) :
    l.getLastD d = l.getD (l.length - 1) d := by
  rw [List.getLastD_eq_getLast?, List.getLast?_eq_getElem?, List.getD_eq_getElem?_getD]

theorem getD_zero_eq_headD {α : Type} (l : List α) (d : α) :
    l.getD 0 d = l.headD d := by
  cases l <;> rfl

theorem sel_pairwise_lt (is : List Nat) (sl : List Int)
    (hp : is.Pairwise (· < ·)) (hb : ∀ b ∈ is, b < sl.length)
    (hsl : sl.Pairwise (· < ·)) : (sel is sl 0).Pairwise (· < ·) := by
  unfold sel
  rw [List.pairwise_map]
  apply List.Pairwise.imp_of_mem ?_ hp
  intro a b _ hbmem hab
  exact chain_lt_getD_lt sl 0 hsl hab (hb b hbmem)

/-- C10: the leg returned by `bunch` represents the same flat charge
assignment: it has the same `ind_len`, and its `to_qflat` output equals the
original's; only the block decomposition shrinks. -/
theorem C10_bunch_preserves_qflat (l : LegCharge) (hv : l.valid)
    (hB : 1 ≤ l.block_number) :
    l.bunch.2.ind_len = l.ind_len ∧ l.bunch.2.to_qflat = l.to_qflat := by
  by_cases hfast : l.bunched = true
  · rw [bunch_fast l hfast]
    exact ⟨rfl, rfl⟩
  · -- slow path
    obtain ⟨hs, hchainB⟩ := hv
    have hchain : l.slices.Chain' (· < ·) := (chainLtB_iff l.slices).mp hchainB
    have hpw : l.slices.Pairwise (· < ·) := List.chain'_iff_pairwise.mp hchain
    unfold LegCharge.test_sanity at hs
    simp only [Bool.and_eq_true, beq_iff_eq, Bool.or_eq_true] at hs
    obtain ⟨⟨⟨⟨hlen, hhead⟩, _⟩, _⟩, _⟩ := hs
    set L := l.charges.length with hLdef
    have hL1 : 1 ≤ L := hB
    have hslne : l.slices ≠ [] := by
      intro h; rw [h] at hlen; simp at hlen
    have hhead0 : l.slices.headD 0 = 0 := by
      rw [headD_irrel l.slices hslne 0 1]; exact hhead
    have hsll : l.slices.length = L + 1 := hlen
    -- shape of the bunched leg
    have hbunch : l.bunch = (findRowDifferences l.charges,
        { l with
          charges := sel (findRowDifferences l.charges).dropLast l.charges [],
          slices := sel (findRowDifferences l.charges) l.slices 0,
          bunched := true }) := by
      unfold LegCharge.bunch
      rw [if_neg hfast]
    obtain ⟨hDLpw, hDLlt, hDLhead, hDLne⟩ := frd_dropLast_pairwise l.charges hL1
    have hfrdpw := frd_pairwise l.charges hL1
    have hfrdsplit := frd_eq_dropLast_concat l.charges
    have hfrdle : ∀ b ∈ findRowDifferences l.charges, b < l.slices.length := by
      intro b hbmem
      rw [hfrdsplit] at hbmem
      rcases List.mem_append.mp hbmem with h | h
      · have := hDLlt b h; omega
      · rw [List.mem_singleton.mp h]; omega
    -- slices of the bunched leg
    set sl' := sel (findRowDifferences l.charges) l.slices 0 with hsl'
    have hsl'split : sl' = sel (findRowDifferences l.charges).dropLast l.slices 0
        ++ [l.slices.getD L 0] := by
      rw [hsl']
      conv_lhs => rw [hfrdsplit]
      unfold sel
      rw [List.map_append]
      rfl
    have hsl'last : sl'.getLastD 0 = l.slices.getD L 0 := by
      rw [hsl'split, List.getLastD_concat]
    have hindlen : l.ind_len = l.slices.getD L 0 := by
      unfold LegCharge.ind_len
      rw [getLastD_eq_getD, hsll]
      rfl
    have hsl'pw : sl'.Pairwise (· < ·) :=
      sel_pairwise_lt _ _ hfrdpw hfrdle hpw
    have hsl'ne : sl' ≠ [] := by
      rw [hsl'split]
      simp
    have hsl'head : sl'.headD 0 = 0 := by
      obtain ⟨d0, tl, hdl⟩ := List.exists_cons_of_ne_nil hDLne
      have hd0 : d0 = 0 := by
        have := hDLhead
        rw [hdl] at this
        simpa using this
      rw [hsl', hfrdsplit, hdl]
      show (sel ((d0 :: tl) ++ [L]) l.slices 0).headD 0 = 0
      unfold sel
      rw [List.cons_append, List.map_cons, List.headD_cons, hd0,
        getD_zero_eq_headD, hhead0]
    have hsl'len : sl'.length = (findRowDifferences l.charges).length := by
      rw [hsl']; unfold sel; rw [List.length_map]
    have hfrdlen : (findRowDifferences l.charges).length
        = (findRowDifferences l.charges).dropLast.length + 1 := by
      rw [hfrdsplit, List.length_append]
      simp
    have hindnn : (0 : Int) ≤ l.ind_len := by
      have := chain_le_head_last l.slices
        ((List.chain'_iff_pairwise).mpr (hpw.imp (fun h => le_of_lt h))) hslne
      unfold LegCharge.ind_len
      rw [hhead0] at this
      exact this
    rw [hbunch]
    constructor
    · show sl'.getLastD 0 = l.ind_len
      rw [hsl'last, hindlen]
    · -- to_qflat equality
      show LegCharge.to_qflat _ = LegCharge.to_qflat l
      rw [to_qflat_eq_qflatOf, to_qflat_eq_qflatOf]
      show qflatOf sl' (sel (findRowDifferences l.charges).dropLast l.charges [])
          = qflatOf l.slices l.charges
      apply List.ext_getElem?
      intro n
      by_cases hn : n < l.ind_len.toNat
      · have hnint : (n : Int) < l.ind_len := by omega
        have hch1 : sl'.Chain' (· < ·) := List.chain'_iff_pairwise.mpr hsl'pw
        have hget1 := qflatOf_get sl'
          (sel (findRowDifferences l.charges).dropLast l.charges [])
          (by
            rw [hsl'len, hfrdlen]
            unfold sel
            rw [List.length_map])
          hch1 (n : Int) (by rw [hsl'head]; exact Int.ofNat_nonneg n)
          (by rw [hsl'last, ← hindlen]; exact hnint)
        have hget2 := qflatOf_get l.slices l.charges (by omega) hchain (n : Int)
          (by rw [hhead0]; exact Int.ofNat_nonneg n)
          (by
            show (n : Int) < l.slices.getLastD 0
            exact hnint)
        rw [hsl'head] at hget1
        rw [hhead0] at hget2
        simp only [Int.sub_zero, Int.toNat_ofNat] at hget1 hget2
        rw [← List.get?_eq_getElem?, hget1, ← List.get?_eq_getElem?, hget2]
        -- relate the two bisect results
        obtain ⟨hk1, hk2, hk3, hk4⟩ := bisectRight_locate l.slices hchain (n : Int)
          hslne (by rw [hhead0]; exact Int.ofNat_nonneg n) hnint
        set k := bisectRight l.slices (n : Int) with hk
        set q := k - 1 with hq
        have hqL : q < L := by omega
        have hA : bisectRight sl' (n : Int)
            = (findRowDifferences l.charges).dropLast.countP (fun i => i ≤ q) := by
          rw [bisectRight_eq_countP sl' (n : Int)
            (List.chain'_iff_pairwise.mpr (hsl'pw.imp (fun h => le_of_lt h)))]
          rw [hsl']
          unfold sel
          rw [List.countP_map]
          have hcong : (findRowDifferences l.charges).countP
              ((fun s => decide (s ≤ (n : Int))) ∘ (fun i => l.slices.getD i 0))
              = (findRowDifferences l.charges).countP (fun b => b ≤ q) := by
            apply List.countP_congr
            intro b hbmem
            have hbL : b < l.slices.length := hfrdle b hbmem
            simp only [Function.comp_apply, decide_eq_true_eq]
            constructor
            · intro hle
              by_contra hgt
              push_neg at hgt
              have : l.slices.getD k 0 ≤ l.slices.getD b 0 :=
                chain_lt_getD_le l.slices 0 hpw (by omega) hbL
              omega
            · intro hle
              have : l.slices.getD b 0 ≤ l.slices.getD q 0 :=
                chain_lt_getD_le l.slices 0 hpw hle (by omega)
              omega
          rw [hcong]
          conv_lhs => rw [hfrdsplit]
          rw [List.countP_append]
          have : ([L] : List Nat).countP (fun b => b ≤ q) = 0 := by
            simp [List.countP_cons]
            omega
          rw [this, Nat.add_zero]
        rw [hA]
        rw [runs_getD l.charges q hqL]
      · -- both out of range
        push_neg at hn
        have hlen1 : (qflatOf sl'
            (sel (findRowDifferences l.charges).dropLast l.charges [])).length
            = l.ind_len.toNat := by
          rw [qflatOf_length _ _
            (by
              rw [hsl'len, hfrdlen]
              unfold sel
              rw [List.length_map])
            (List.chain'_iff_pairwise.mpr (hsl'pw.imp (fun h => le_of_lt h)))]
          rw [hsl'last, hsl'head, ← hindlen, Int.sub_zero]
        have hlen2 : (qflatOf l.slices l.charges).length = l.ind_len.toNat := by
          rw [qflatOf_length _ _ (by omega)
            ((List.chain'_iff_pairwise).mpr (hpw.imp (fun h => le_of_lt h)))]
          rw [hhead0, Int.sub_zero]
          rfl
        rw [List.getElem?_eq_none (by omega), List.getElem?_eq_none (by omega)]

/-- Leg with two adjacent equal-charge blocks, used as the C10 witness. -/
def legB : LegCharge :=
  { chinfo := { mod := [1], names := [""] },
    slices := [0, 1, 3], charges := [[0], [0]],
    qconj := 1, sorted := false, bunched := false }

/-- Witness for C10 at the concrete leg `legB`. -/
theorem C10_witness :
    legB.valid ∧ 1 ≤ legB.block_number ∧ legB.bunch.2.ind_len = legB.ind_len :=
  ⟨by decide, by decide, (C10_bunch_preserves_qflat legB (by decide) (by decide)).1⟩

-- ------------------------------------------------------------------
-- is_blocked / project (C5)
-- ------------------------------------------------------------------

/-- `LegCharge.is_blocked`: qindices map 1:1 to charge values.  Fast path on
the `sorted && bunched` flags; otherwise a set-of-rows cardinality check
(`dedup` plays the role of the python `set`). -/
def LegCharge.is_blocked (l : LegCharge) : Bool :=
  if l.sorted && l.bunched then true
  else l.charges.dedup.length == l.block_number

/-- The per-block boolean sub-masks `mask[b:e]` for the `(start, stop)` pairs
of `_slice_start_stop`. -/
def blockMasksOf (l : LegCharge) (mask : List Bool) : List (List Bool) :=
  (l.slices.zip l.slices.tail).map fun p =>
    (mask.drop p.1.toNat).take (p.2 - p.1).toNat

/-- `new_block_lens`: surviving index count per block (`np.sum` of each
sub-mask). -/
def projLens (l : LegCharge) (mask : List Bool) : List Nat :=
  (blockMasksOf l mask).map (fun bm => bm.countP id)

/-- `LegCharge.project`: keep only the flat indices selected by `mask`;
returns the old-to-new qindex map (−1 for fully projected-out blocks), the
per-remaining-block sub-masks, and the projected leg.  The scatter
`map_qind[keep] = arange(len(keep))` assigns each kept block its rank among
the kept blocks; `bunched` is set from `self.is_blocked()` of the *original*
leg. -/
def LegCharge.project (l : LegCharge) (mask : List Bool) :
    List Int × List (List Bool) × LegCharge :=
  let block_masks0 := blockMasksOf l mask
  let new_block_lens := projLens l mask
  let keep := (List.range l.block_number).filter fun i => new_block_lens.getD i 0 ≠ 0
  let block_masks := sel keep block_masks0 []
  let map_qind := (List.range l.block_number).map fun q =>
    if new_block_lens.getD q 0 ≠ 0 then
      ((List.range q).countP (fun p => new_block_lens.getD p 0 ≠ 0) : Int)
    else -1
  let cp := { l with
    charges := sel keep l.charges [],
    slices := cumsum0 (sel keep (new_block_lens.map Int.ofNat) 0),
    bunched := l.is_blocked }
  (map_qind, block_masks, cp)

theorem scanl_cons_head :
    ∀ (a : Int) (t : List Int),
      t.scanl (· + ·) a = a :: (t.scanl (· + ·) a).tail
  | _, [] => rfl
  | _, _ :: _ => rfl

theorem scanl_ne_nil (a : Int) (t : List Int) : t.scanl (· + ·) a ≠ [] := by
  cases t with
  | nil => simp
  | cons y ys => rw [List.scanl_cons]; simp

theorem getLastD_cons_of_ne_nil {α : Type} (a : α) (l : List α) (d : α)
    (h : l ≠ []) : (a :: l).getLastD d = l.getLastD d := by
  cases l with
  | nil => exact absurd rfl h
  | cons y ys =>
    rw [List.getLastD_eq_getLast?, List.getLastD_eq_getLast?, List.getLast?_cons_cons]

/-- The block sizes recovered from `_set_block_sizes` are the sizes that were
set: differences of the cumulative sums. -/
theorem scanl_add_tail_sub :
    ∀ (a : Int) (xs : List Int),
      List.zipWith (fun b c => b - c) (xs.scanl (· + ·) a).tail (xs.scanl (· + ·) a)
        = xs
  | _, [] => rfl
  | a, x :: t => by
    have ih := scanl_add_tail_sub (a + x) t
    rw [List.scanl_cons, List.singleton_append, List.tail_cons]
    conv_lhs => rw [scanl_cons_head (a + x) t]
    rw [List.zipWith_cons_cons]
    conv_lhs => rw [← scanl_cons_head (a + x) t]
    rw [ih]
    congr 1
    ring

/-- The last entry of the cumulative-sum slice vector is the total size. -/
theorem cumsum0_last :
    ∀ (a : Int) (xs : List Int), (xs.scanl (· + ·) a).getLastD 0 = a + xs.sum
  | a, [] => by simp
  | a, x :: t => by
    rw [List.scanl_cons, List.singleton_append, List.sum_cons,
      getLastD_cons_of_ne_nil _ _ _ (scanl_ne_nil (a + x) t),
      cumsum0_last (a + x) t]
    ring

theorem getD_map_ofNat (lens : List Nat) (i : Nat) :
    (lens.map Int.ofNat).getD i 0 = Int.ofNat (lens.getD i 0) := by
  rw [List.getD_eq_getElem?_getD, List.getElem?_map, List.getD_eq_getElem?_getD]
  cases lens[i]? <;> rfl

theorem sel_map_ofNat (keep : List Nat) (lens : List Nat) :
    sel keep (lens.map Int.ofNat) 0 = (sel keep lens 0).map Int.ofNat := by
  unfold sel
  rw [List.map_map]
  apply List.map_congr_left
  intro i _
  exact getD_map_ofNat lens i

theorem sum_map_ofNat : ∀ (l : List Nat), (l.map Int.ofNat).sum = Int.ofNat l.sum
  | [] => rfl
  | x :: t => by
    simp only [List.map_cons, List.sum_cons, sum_map_ofNat t]
    exact (Int.ofNat_add x t.sum).symm

theorem sum_sel_filter_nat (p : Nat → Bool) (xs : List Nat) :
    ∀ (is : List Nat), (∀ i ∈ is, p i = false → xs.getD i 0 = 0) →
      (sel (is.filter p) xs 0).sum = (sel is xs 0).sum
  | [], _ => rfl
  | i :: rest, h => by
    have ih := sum_sel_filter_nat p xs rest (fun j hj => h j (List.mem_cons_of_mem _ hj))
    by_cases hp : p i = true
    · rw [List.filter_cons, if_pos hp]
      unfold sel at *
      simp only [List.map_cons, List.sum_cons]
      rw [ih]
    · rw [List.filter_cons, if_neg (by simpa using hp)]
      unfold sel at *
      simp only [List.map_cons, List.sum_cons]
      rw [ih, h i (List.mem_cons_self i rest) (by simpa using hp)]
      omega

theorem sel_range_length {α : Type} (xs : List α) (d : α) :
    sel (List.range xs.length) xs d = xs := by
  apply List.ext_getElem?
  intro n
  unfold sel
  by_cases h : n < xs.length
  · rw [List.getElem?_map, List.getElem?_range h]
    simp only [Option.map_some', List.getD_eq_getElem?_getD,
      List.getElem?_eq_getElem h, Option.getD_some]
  · rw [List.getElem?_eq_none (by simpa using not_lt.mp h),
      List.getElem?_eq_none (by simpa using not_lt.mp h)]

/-- The per-block sub-masks concatenate back to a contiguous segment of the
mask. -/
theorem pieces_flatten :
    ∀ (sl : List Int) (mask : List Bool), sl.Chain' (· ≤ ·) → sl ≠ [] →
      0 ≤ sl.headD 0 →
      ((sl.zip sl.tail).map (fun p =>
          (mask.drop p.1.toNat).take (p.2 - p.1).toNat)).flatten
        = (mask.drop (sl.headD 0).toNat).take (sl.getLastD 0 - sl.headD 0).toNat
  | [], _, _, hne, _ => absurd rfl hne
  | [a], mask, _, _, _ => by
    simp
  | a :: b :: rest, mask, hch, _, hh => by
    simp only [List.headD_cons] at hh
    have hab : a ≤ b := (List.chain'_cons.mp hch).1
    have hch' : (b :: rest).Chain' (· ≤ ·) := (List.chain'_cons.mp hch).2
    have hble : b ≤ (b :: rest).getLastD 0 :=
      chain_le_head_last (b :: rest) hch' (by simp)
    have ih := pieces_flatten (b :: rest) mask hch' (by simp) (by simp; omega)
    simp only [List.tail_cons] at ih
    simp only [List.tail_cons, List.zip_cons_cons, List.map_cons, List.flatten_cons]
    rw [ih]
    simp only [List.headD_cons]
    rw [getLastD_cons_of_ne_nil a (b :: rest) 0 (by simp)]
    have hd : mask.drop b.toNat = (mask.drop a.toNat).drop (b - a).toNat := by
      rw [List.drop_drop]
      congr 1
      omega
    rw [hd, ← List.take_add]
    congr 1
    omega

theorem sel_nodup (keep : List Nat) (cs : List Row)
    (hk : keep.Pairwise (· < ·)) (hb : ∀ b ∈ keep, b < cs.length)
    (hnd : cs.Nodup) : (sel keep cs []).Nodup := by
  unfold sel
  show ((keep.map fun i => cs.getD i [])).Pairwise (· ≠ ·)
  rw [List.pairwise_map]
  apply List.Pairwise.imp_of_mem ?_ hk
  intro a b ha hbmem hab
  have hal : a < cs.length := hb a ha
  have hbl : b < cs.length := hb b hbmem
  have := List.pairwise_iff_get.mp hnd ⟨a, hal⟩ ⟨b, hbl⟩ hab
  rw [List.getD_eq_getElem cs [] hal, List.getD_eq_getElem cs [] hbl]
  simpa using this

theorem dedup_length_eq_iff (cs : List Row) :
    (cs.dedup.length == cs.length) = true ↔ cs.Nodup := by
  constructor
  · intro h
    have hsub : cs.dedup.Sublist cs := List.dedup_sublist cs
    have heq := hsub.eq_of_length (by simpa using h)
    rw [← heq]
    exact List.nodup_dedup cs
  · intro h
    simp [List.Nodup.dedup h]

theorem is_blocked_of_nodup (x : LegCharge) (h : x.charges.Nodup) :
    x.is_blocked = true := by
  unfold LegCharge.is_blocked
  by_cases hf : (x.sorted && x.bunched) = true
  · rw [if_pos hf]
  · rw [if_neg hf]
    exact (dedup_length_eq_iff x.charges).mpr h

/-- C5 amended (and counterexample below): `project` returns (i) an old→new
qindex map that is −1 exactly for blocks with no surviving index and is the
rank among kept blocks otherwise; (ii) the per-remaining-block sub-mask, with
(iii) a new leg over only the surviving flat indices (block sizes are the
per-block survivor counts, `ind_len` is the total survivor count, empty blocks
are dropped); the new `bunched` flag is `is_blocked()` *of the original leg* —
not of the projected result — which is conservative: when it is set (and the
original's flags are honest) the projected result is itself fully blocked. -/
theorem C5_project_amended (l : LegCharge) (mask : List Bool)
    (hv : l.valid) (hm : mask.length = l.ind_len.toNat)
    (hflag : l.sorted = true → l.bunched = true → l.charges.Nodup) :
    (∀ q, q < l.block_number →
      (((l.project mask).1.getD q 0 = -1 ↔ (projLens l mask).getD q 0 = 0) ∧
       (0 ≤ (l.project mask).1.getD q 0 →
         (l.project mask).2.2.charges.getD ((l.project mask).1.getD q 0).toNat []
             = l.charges.getD q [] ∧
         (l.project mask).2.1.getD ((l.project mask).1.getD q 0).toNat []
             = (blockMasksOf l mask).getD q [] ∧
         (l.project mask).2.2._get_block_sizes.getD
             ((l.project mask).1.getD q 0).toNat 0
             = ((projLens l mask).getD q 0 : Int)))) ∧
    (l.project mask).2.2.ind_len = (mask.countP id : Int) ∧
    (l.project mask).2.2.block_number
      = (List.range l.block_number).countP (fun q => (projLens l mask).getD q 0 ≠ 0) ∧
    (l.project mask).2.1.length = (l.project mask).2.2.block_number ∧
    (l.project mask).2.2.bunched = l.is_blocked ∧
    ((l.project mask).2.2.bunched = true →
      (l.project mask).2.2.is_blocked = true ∧ (l.project mask).2.2.charges.Nodup) := by
  obtain ⟨hs, hchainB⟩ := hv
  have hchain : l.slices.Chain' (· < ·) := (chainLtB_iff l.slices).mp hchainB
  have hpw : l.slices.Pairwise (· < ·) := List.chain'_iff_pairwise.mp hchain
  unfold LegCharge.test_sanity at hs
  simp only [Bool.and_eq_true, beq_iff_eq, Bool.or_eq_true] at hs
  obtain ⟨⟨⟨⟨hlen, hhead⟩, _⟩, _⟩, _⟩ := hs
  set B := l.block_number with hBdef
  have hslne : l.slices ≠ [] := by
    intro h; rw [h] at hlen; simp at hlen
  have hhead0 : l.slices.headD 0 = 0 := by
    rw [headD_irrel l.slices hslne 0 1]; exact hhead
  set lens := projLens l mask with hlensdef
  set pred : Nat → Bool := fun i => decide (lens.getD i 0 ≠ 0) with hpreddef
  set keep := (List.range B).filter pred with hkeepdef
  have hpr1 : (l.project mask).1 = (List.range B).map fun q =>
      if lens.getD q 0 ≠ 0 then
        ((List.range q).countP (fun p => lens.getD p 0 ≠ 0) : Int)
      else -1 := rfl
  have hpr21 : (l.project mask).2.1 = sel keep (blockMasksOf l mask) [] := rfl
  have hpr22 : (l.project mask).2.2 = { l with
      charges := sel keep l.charges [],
      slices := cumsum0 (sel keep (lens.map Int.ofNat) 0),
      bunched := l.is_blocked } := rfl
  have hbm0len : (blockMasksOf l mask).length = B := by
    unfold blockMasksOf
    rw [List.length_map, List.length_zip, List.length_tail, hlen]
    omega
  have hlenslen : lens.length = B := by
    rw [hlensdef]
    unfold projLens
    rw [List.length_map, hbm0len]
  have hkeeppw : keep.Pairwise (· < ·) :=
    List.Pairwise.filter _ (List.pairwise_lt_range _)
  have hkeeplt : ∀ b ∈ keep, b < B := by
    intro b hbmem
    exact List.mem_range.mp (List.mem_of_mem_filter hbmem)
  have hmapqind : ∀ q, q < B → (l.project mask).1.getD q 0
      = (if lens.getD q 0 ≠ 0 then
          ((List.range q).countP pred : Int)
        else -1) := by
    intro q hq
    rw [hpr1, List.getD_eq_getElem?_getD, List.getElem?_map,
      List.getElem?_range hq]
    rfl
  refine ⟨?_, ?_, ?_, ?_, ?_, ?_⟩
  · intro q hq
    constructor
    · rw [hmapqind q hq]
      by_cases hl0 : lens.getD q 0 = 0
      · simp [hl0]
      · rw [if_pos hl0]
        constructor
        · intro h
          exfalso
          omega
        · intro h
          exact absurd h hl0
    · intro hge
      have hl0 : lens.getD q 0 ≠ 0 := by
        by_contra h0
        rw [hmapqind q hq, if_neg (by simpa using h0)] at hge
        omega
      have hval : (l.project mask).1.getD q 0 = ((List.range q).countP pred : Int) := by
        rw [hmapqind q hq, if_pos hl0]
      have htn : ((l.project mask).1.getD q 0).toNat = (List.range q).countP pred := by
        rw [hval]; omega
      have hrank : keep.getD ((List.range q).countP pred) 0 = q := by
        rw [hkeepdef]
        exact filterRank pred B q hq (by simpa [hpreddef] using hl0)
      have hrlt : (List.range q).countP pred < keep.length := by
        rw [hkeepdef, ← List.countP_eq_length_filter]
        have h1 : (List.range (q + 1)).countP pred ≤ (List.range B).countP pred :=
          countP_range_mono pred (by omega)
        have h2 : (List.range (q + 1)).countP pred
            = (List.range q).countP pred + 1 := by
          rw [countP_range_succ, if_pos (by simpa [hpreddef] using hl0)]
        omega
      refine ⟨?_, ?_, ?_⟩
      · rw [hpr22, htn]
        show (sel keep l.charges []).getD ((List.range q).countP pred) [] = _
        rw [sel_getD keep l.charges [] _ hrlt, hrank]
      · rw [hpr21, htn]
        rw [sel_getD keep (blockMasksOf l mask) [] _ hrlt, hrank]
      · rw [htn]
        have hbs : (l.project mask).2.2._get_block_sizes
            = sel keep (lens.map Int.ofNat) 0 := by
          rw [hpr22]
          show List.zipWith _ (cumsum0 (sel keep (lens.map Int.ofNat) 0)).tail
            (cumsum0 (sel keep (lens.map Int.ofNat) 0)) = _
          exact scanl_add_tail_sub 0 _
        rw [hbs, sel_getD _ _ _ _ (by
          rwa [hkeepdef] at hrlt), hrank, getD_map_ofNat]
        rfl
  · rw [hpr22]
    show (cumsum0 (sel keep (lens.map Int.ofNat) 0)).getLastD 0 = _
    unfold cumsum0
    rw [cumsum0_last, sel_map_ofNat, sum_map_ofNat]
    have hz : ∀ i ∈ List.range B, pred i = false → lens.getD i 0 = 0 := by
      intro i _ hpi
      rw [hpreddef] at hpi
      simpa using hpi
    have hsum1 : (sel keep lens 0).sum = (sel (List.range B) lens 0).sum := by
      rw [hkeepdef]
      exact sum_sel_filter_nat pred lens (List.range B) hz
    have hsum2 : sel (List.range B) lens 0 = lens := by
      rw [← hlenslen]
      exact sel_range_length lens 0
    rw [hsum1, hsum2]
    have hcnt : lens.sum = mask.countP id := by
      rw [hlensdef]
      unfold projLens
      rw [← List.countP_flatten]
      congr 1
      unfold blockMasksOf
      rw [pieces_flatten l.slices mask
        (List.chain'_iff_pairwise.mpr (hpw.imp (fun h => le_of_lt h)))
        hslne (by rw [hhead0]), hhead0]
      simp only [Int.sub_zero, Int.toNat_zero, List.drop_zero]
      have : l.slices.getLastD 0 = l.ind_len := rfl
      rw [this, ← hm]
      exact List.take_length mask
    rw [hcnt, Int.zero_add]
    rfl
  · rw [hpr22]
    show (sel keep l.charges []).length = _
    unfold sel
    rw [List.length_map, hkeepdef, ← List.countP_eq_length_filter]
  · rw [hpr21, hpr22]
    show (sel keep (blockMasksOf l mask) []).length = (sel keep l.charges []).length
    unfold sel
    rw [List.length_map, List.length_map]
  · rw [hpr22]
  · intro hbset
    rw [hpr22] at hbset ⊢
    have hibl : l.is_blocked = true := hbset
    have hnd : l.charges.Nodup := by
      unfold LegCharge.is_blocked at hibl
      by_cases hflags : (l.sorted && l.bunched) = true
      · simp only [Bool.and_eq_true] at hflags
        exact hflag hflags.1 hflags.2
      · rw [if_neg hflags] at hibl
        exact (dedup_length_eq_iff l.charges).mp hibl
    have hnd' : (sel keep l.charges []).Nodup :=
      sel_nodup keep l.charges hkeeppw (fun b hbmem => hkeeplt b hbmem) hnd
    constructor
    · exact is_blocked_of_nodup _ hnd'
    · exact hnd'

/-- Leg with a duplicated (non-adjacent) charge row, used to refute the
claimed `bunched`-flag semantics of `project`. -/
def legC5 : LegCharge :=
  { chinfo := { mod := [1], names := [""] },
    slices := [0, 1, 2, 3], charges := [[0], [1], [0]],
    qconj := 1, sorted := false, bunched := false }

/-- C5 counterexample: projecting out the whole third block of `legC5` with
mask `[true, true, false]` leaves a leg whose charges `[[0], [1]]` are fully
blocked (`is_blocked` is true), yet the returned `bunched` flag is false,
because the code computes `self.is_blocked()` on the *original* leg (whose
rows `[[0], [1], [0]]` repeat).  This refutes "bunched flag is true iff the
projected result is fully blocked by charge". -/
theorem C5_counterexample :
    (legC5.project [true, true, false]).2.2.bunched = false ∧
    (legC5.project [true, true, false]).2.2.is_blocked = true := by
  constructor
  · rfl
  · rfl

/-- Witness for the amended C5 at `legA` with mask `[true, true, false]`. -/
theorem C5_witness :
    legA.valid ∧ ([true, true, false] : List Bool).length = legA.ind_len.toNat ∧
    (legA.project [true, true, false]).2.2.ind_len
      = ((([true, true, false] : List Bool).countP id : Nat) : Int) :=
  ⟨by decide, by decide,
    (C5_project_amended legA [true, true, false] (by decide) (by decide)
      (by decide)).2.1⟩

-- ------------------------------------------------------------------
-- from_qdict (C4)
-- ------------------------------------------------------------------

/-- `LegCharge.__init__` followed by its `test_sanity` call: an invalid
structure raises ("invalid charge structure"). -/
def mkLegCharge (chinfo : ChargeInfo) (slices : List Int) (charges : List Row)
    (qconj : Int) : Except String LegCharge :=
  let res : LegCharge :=
    { chinfo := chinfo, slices := slices, charges := charges, qconj := qconj,
      sorted := false, bunched := false }
  if res.test_sanity then .ok res else .error "invalid charge structure"

/-- `LegCharge.from_qdict`: build a leg from dict items
`(charge_tuple, (start, stop))`.  Sorts the entries by slice start
(`np.argsort(slices[:, 0])`, modelled as a stable argsort), checks the sorted
slices are contiguous, then sets `sorted = True` unconditionally and derives
`bunched` via `is_bunched()`. -/
def LegCharge.from_qdict (chinfo : ChargeInfo) (qdict : List (Row × Int × Int))
    (qconj : Int) : Except String LegCharge :=
  let starts := qdict.map (fun p => p.2.1)
  let stops := qdict.map (fun p => p.2.2)
  let charges0 := qdict.map (fun p => p.1)
  let perm := insSort (fun i j =>
      starts.getD i 0 < starts.getD j 0 ||
      (starts.getD i 0 == starts.getD j 0 && i < j)) (List.range qdict.length)
  let starts1 := sel perm starts 0
  let stops1 := sel perm stops 0
  let charges1 := sel perm charges0 []
  if (stops1.zip (starts1.drop 1)).any (fun p => p.1 != p.2) then
    .error "The slices are not contiguous."
  else
    match mkLegCharge chinfo (starts1 ++ [stops1.getLastD 0]) charges1 qconj with
    | .error e => .error e
    | .ok res => .ok { res with sorted := true, bunched := res.is_bunched }

/-- C4 (refutation by evaluation): `from_qdict` on the dict
`{(1,): slice(0, 2), (0,): slice(2, 3)}` succeeds and sets `sorted = True`,
although the resulting charge rows `[[1], [0]]` are *not* lexicographically
non-decreasing — `is_sorted()` on the very same leg returns `False`.  This
contradicts the claimed invariant that the `sorted` status flag is true only
if `charges` is sorted. -/
theorem C4_from_qdict_sorted_flag :
    ((LegCharge.from_qdict { mod := [1], names := [""] }
        [([1], 0, 2), ([0], 2, 3)] 1).toOption.map
      (fun leg => (leg.sorted, leg.is_sorted, leg.charges)))
    = some (true, false, [[1], [0]]) := rfl

-- ------------------------------------------------------------------
-- LegPipe (C1, C3)
-- ------------------------------------------------------------------

/-- One row of `q_map`: offsets `[b_j, b_{j+1})` of this qindex combination
within its fused block, the combination `(i_1, ..., i_nlegs)` itself, and the
fused block qindex `I_s`. -/
structure QmapRow where
  b0 : Int
  b1 : Int
  inds : List Nat
  fused : Nat
  deriving DecidableEq, Repr, Inhabited

/-- `LegPipe`: a fused `LegCharge` (`base`) plus the incoming legs and the
fusion table `q_map`.  (`q_map_slices`, `_perm` and `_strides` — derived
grouping/inversion data used only by the array-reshape path — are not
modelled, as no claim concerns them.) -/
structure LegPipe where
  base : LegCharge
  legs : List LegCharge
  q_map : List QmapRow
  deriving DecidableEq, Repr

/-- Columns of the reshaped `np.mgrid` over the block-count shape: every
combination of per-leg qindices, in row-major order (the last leg's index
varies fastest). -/
def gridRows : List Nat → List (List Nat)
  | [] => [[]]
  | n :: rest => (List.range n).flatMap fun i => (gridRows rest).map (i :: ·)

/-- `_init_from_legs`, staged.  `pipeChinfo` is `legs[0].chinfo`. -/
def pipeChinfo (legs : List LegCharge) : ChargeInfo :=
  match legs with
  | [] => { mod := [], names := [] }
  | l :: _ => l.chinfo

def pipeQn (legs : List LegCharge) : Nat := (pipeChinfo legs).qnumber

/-- The Cartesian product of the incoming qindices (`grid2` columns). -/
def pipeGrid (legs : List LegCharge) : List (List Nat) :=
  gridRows (legs.map (·.block_number))

def pipeNblocks (legs : List LegCharge) : Nat := (pipeGrid legs).length

/-- Per-row block size: product of the incoming blocks' sizes. -/
def pipeBlocksizes (legs : List LegCharge) : List Int :=
  (pipeGrid legs).map fun inds =>
    (legs.zip inds).foldl (fun acc p => acc * (p.1._get_block_sizes.getD p.2 0)) 1

/-- Per-row raw fused charge: accumulate `(qconj * leg.qconj) * leg.charges[i_l, k]`
into zeros, as the double loop in the source does. -/
def pipeCharges0 (legs : List LegCharge) (qconj : Int) : List Row :=
  (pipeGrid legs).map fun inds =>
    (List.range (pipeQn legs)).map fun k =>
      (legs.zip inds).foldl
        (fun acc p => acc + (qconj * p.1.qconj) * ((p.1.charges.getD p.2 []).getD k 0)) 0

/-- The fused charges after reduction (`make_valid` is applied twice in the
source, guarded by `qnumber > 0`). -/
def pipeCharges1 (legs : List LegCharge) (qconj : Int) : List Row :=
  if 0 < pipeQn legs then
    (pipeChinfo legs).make_valid_2D ((pipeChinfo legs).make_valid_2D (pipeCharges0 legs qconj))
  else pipeCharges0 legs qconj

/-- `perm_qind = lexsort(charges.T)` of the sort step. -/
def pipePerm (legs : List LegCharge) (qconj : Int) : List Nat :=
  lexsortT (pipeCharges1 legs qconj) (pipeQn legs)

def pipeGridS (legs : List LegCharge) (qconj : Int) (srt : Bool) : List (List Nat) :=
  if srt then sel (pipePerm legs qconj) (pipeGrid legs) [] else pipeGrid legs

def pipeCharges2 (legs : List LegCharge) (qconj : Int) (srt : Bool) : List Row :=
  if srt then sel (pipePerm legs qconj) (pipeCharges1 legs qconj) []
  else pipeCharges1 legs qconj

def pipeSizes2 (legs : List LegCharge) (qconj : Int) (srt : Bool) : List Int :=
  if srt then sel (pipePerm legs qconj) (pipeBlocksizes legs) 0 else pipeBlocksizes legs

/-- `_set_block_sizes`: the pre-bunch slices. -/
def pipeSlices0 (legs : List LegCharge) (qconj : Int) (srt : Bool) : List Int :=
  cumsum0 (pipeSizes2 legs qconj srt)

def pipeIdx (legs : List LegCharge) (qconj : Int) (srt : Bool) : List Nat :=
  findRowDifferences (pipeCharges2 legs qconj srt)

/-- The fused leg's final charges (bunched when requested, as
`LegCharge.bunch` does). -/
def pipeChargesF (legs : List LegCharge) (qconj : Int) (srt bnch : Bool) : List Row :=
  if bnch then sel (pipeIdx legs qconj srt).dropLast (pipeCharges2 legs qconj srt) []
  else pipeCharges2 legs qconj srt

def pipeSlicesF (legs : List LegCharge) (qconj : Int) (srt bnch : Bool) : List Int :=
  if bnch then sel (pipeIdx legs qconj srt) (pipeSlices0 legs qconj srt) 0
  else pipeSlices0 legs qconj srt

/-- The fused-block qindex assigned to each pre-bunch row by the
`q_map[j, -1]` loops: the index of the run containing row `j` when bunching,
`j` itself otherwise. -/
def pipeFusedOf (legs : List LegCharge) (qconj : Int) (srt bnch : Bool) : Nat → Nat :=
  if bnch then fun j => ((pipeIdx legs qconj srt).dropLast.countP (fun i => i ≤ j)) - 1
  else fun j => j

/-- `LegPipe.__init__` / `_init_from_legs`: build the fused leg.  Steps:
Cartesian product of the incoming qindices (`gridRows`); per-row block size
and fused charge; optional stable lexsort by fused charge; slices from the
cumulative block sizes; optional bunching exactly as `LegCharge.bunch`; and
the per-row offsets within the owning fused block.  The pipe's `sorted` flag
records the `sort` argument; `bunched` stays the `False` set by
`LegCharge.__init__` (the source never overwrites it). -/
def makeLegPipe (legs : List LegCharge) (qconj : Int) (srt bnch : Bool) : LegPipe :=
  { base := { chinfo := pipeChinfo legs,
              slices := pipeSlicesF legs qconj srt bnch,
              charges := pipeChargesF legs qconj srt bnch,
              qconj := qconj, sorted := srt, bunched := false },
    legs := legs,
    q_map := (List.range (pipeNblocks legs)).map fun j =>
      { b0 := (pipeSlices0 legs qconj srt).getD j 0
            - (pipeSlicesF legs qconj srt bnch).getD (pipeFusedOf legs qconj srt bnch j) 0,
        b1 := (pipeSlices0 legs qconj srt).getD (j + 1) 0
            - (pipeSlicesF legs qconj srt bnch).getD (pipeFusedOf legs qconj srt bnch j) 0,
        inds := (pipeGridS legs qconj srt).getD j [],
        fused := pipeFusedOf legs qconj srt bnch j : QmapRow } }

/-- `LegPipe.outer_conj`: shallow copy; the source sets `res.qconj = -1`
literally (not `-self.qconj`) and `charges` to `make_valid(-charges)`; the
stored incoming legs are untouched. -/
def LegPipe.outer_conj (p : LegPipe) : LegPipe :=
  { p with base := { p.base with
      qconj := -1,
      charges := p.base.chinfo.make_valid_2D
        (p.base.charges.map (fun r => r.map (fun c => -c))) } }

/-- Sum of the incoming legs' effective charges (each `charges[i_l] * qconj_l`)
for one qindex combination, componentwise over `qnumber` charge columns. -/
def effSum (qn : Nat) (legs : List LegCharge) (inds : List Nat) : Row :=
  (List.range qn).map fun k =>
    ((legs.zip inds).map fun p => p.1.qconj * ((p.1.charges.getD p.2 []).getD k 0)).sum

/-- Incoming legs and pipe (with `qconj = -1`) for the C3 evaluation. -/
def legP0 : LegCharge :=
  { chinfo := { mod := [2], names := [""] },
    slices := [0, 1, 2], charges := [[0], [1]],
    qconj := 1, sorted := true, bunched := true }

def legP1 : LegCharge :=
  { chinfo := { mod := [2], names := [""] },
    slices := [0, 1], charges := [[1]],
    qconj := 1, sorted := true, bunched := true }

def pipe3 : LegPipe := makeLegPipe [legP0, legP1] (-1) true true

/-- C3 (refutation by evaluation): `outer_conj` on a pipe whose own `qconj`
is `-1` does *not* negate it — the code assigns the literal `-1`
(`res.qconj = -1`) instead of `-self.qconj`, so the result's `qconj` is again
`-1` rather than `+1`.  The other claimed effects do hold: `charges` becomes
`make_valid(-charges)` and the stored input legs are the same, untouched. -/
theorem C3_outer_conj_qconj_not_negated :
    pipe3.base.qconj = -1 ∧
    pipe3.outer_conj.base.qconj = -1 ∧
    ¬ (pipe3.outer_conj.base.qconj = - pipe3.base.qconj) ∧
    pipe3.outer_conj.base.charges
      = pipe3.base.chinfo.make_valid_2D
          (pipe3.base.charges.map (fun r => r.map (fun c => -c))) ∧
    pipe3.outer_conj.legs = pipe3.legs :=
  ⟨rfl, rfl, by decide, rfl, rfl⟩

theorem getD_map {α β : Type} (f : α → β) (xs : List α) (p : Nat)
    (hp : p < xs.length) (d : α) (d' : β) :
    (xs.map f).getD p d' = f (xs.getD p d) := by
  rw [List.getD_eq_getElem?_getD, List.getElem?_map, List.getElem?_eq_getElem hp]
  simp only [Option.map_some', Option.getD_some]
  rw [List.getD_eq_getElem xs d hp]

theorem gridRows_length : ∀ (qs : List Nat), (gridRows qs).length = qs.prod
  | [] => rfl
  | n :: rest => by
    unfold gridRows
    rw [List.length_flatMap]
    have h1 : (List.range n).map (List.length ∘ fun i => (gridRows rest).map (i :: ·))
        = (List.range n).map (fun _ => (gridRows rest).length) := by
      apply List.map_congr_left
      intro i _
      simp [Function.comp]
    rw [h1, gridRows_length rest, List.map_const', List.sum_replicate,
      List.length_range, List.prod_cons, smul_eq_mul]

theorem gridRows_mem_length : ∀ (qs : List Nat) (r : List Nat),
    r ∈ gridRows qs → r.length = qs.length
  | [], r, h => by
    unfold gridRows at h
    rw [List.mem_singleton.mp h]
  | n :: rest, r, h => by
    unfold gridRows at h
    obtain ⟨i, _, hr⟩ := List.mem_flatMap.mp h
    obtain ⟨r', hr', rfl⟩ := List.mem_map.mp hr
    simp [gridRows_mem_length rest r' hr']

theorem insertIdx_perm (lt : Nat → Nat → Bool) (i : Nat) :
    ∀ (l : List Nat), (insertIdx lt i l).Perm (i :: l)
  | [] => List.Perm.refl _
  | j :: rest => by
    unfold insertIdx
    by_cases h : lt i j
    · rw [if_pos h]
    · rw [if_neg h]
      exact ((insertIdx_perm lt i rest).cons j).trans (List.Perm.swap i j rest)

theorem insSort_perm (lt : Nat → Nat → Bool) :
    ∀ (l : List Nat), (insSort lt l).Perm l
  | [] => List.Perm.refl _
  | i :: rest => by
    unfold insSort
    exact (insertIdx_perm lt i (insSort lt rest)).trans ((insSort_perm lt rest).cons i)

theorem lexsortT_perm (rows : List Row) (qn : Nat) :
    (lexsortT rows qn).Perm (List.range rows.length) := by
  unfold lexsortT
  by_cases h : (qn == 0 || rows.length == 0) = true
  · rw [if_pos h]
  · rw [if_neg h]
    exact insSort_perm _ _

theorem lexsortT_length (rows : List Row) (qn : Nat) :
    (lexsortT rows qn).length = rows.length := by
  rw [(lexsortT_perm rows qn).length_eq, List.length_range]

theorem lexsortT_getD_lt (rows : List Row) (qn : Nat) (t : Nat)
    (ht : t < rows.length) : (lexsortT rows qn).getD t 0 < rows.length := by
  have hmem : (lexsortT rows qn).getD t 0 ∈ lexsortT rows qn := by
    rw [List.getD_eq_getElem _ _ (by rw [lexsortT_length]; exact ht)]
    exact List.getElem_mem _
  exact List.mem_range.mp (((lexsortT_perm rows qn).mem_iff).mp hmem)

theorem foldl_charge_sum (qconj : Int) (k : Nat) :
    ∀ (ps : List (LegCharge × Nat)) (init : Int),
      ps.foldl (fun acc p =>
          acc + (qconj * p.1.qconj) * ((p.1.charges.getD p.2 []).getD k 0)) init
        = init + qconj *
            (ps.map (fun p => p.1.qconj * ((p.1.charges.getD p.2 []).getD k 0))).sum
  | [], init => by simp
  | p :: rest, init => by
    simp only [List.foldl_cons, List.map_cons, List.sum_cons]
    rw [foldl_charge_sum qconj k rest]
    ring

theorem pipeCharges0_length (legs : List LegCharge) (qconj : Int) :
    (pipeCharges0 legs qconj).length = pipeNblocks legs := by
  unfold pipeCharges0 pipeNblocks
  rw [List.length_map]

theorem pipeCharges1_length (legs : List LegCharge) (qconj : Int) :
    (pipeCharges1 legs qconj).length = pipeNblocks legs := by
  unfold pipeCharges1
  by_cases h : 0 < pipeQn legs
  · rw [if_pos h]
    unfold ChargeInfo.make_valid_2D
    rw [List.length_map, List.length_map, pipeCharges0_length]
  · rw [if_neg h, pipeCharges0_length]

theorem pipeCharges2_length (legs : List LegCharge) (qconj : Int) (srt : Bool) :
    (pipeCharges2 legs qconj srt).length = pipeNblocks legs := by
  unfold pipeCharges2
  cases srt with
  | false => rw [if_neg (by simp), pipeCharges1_length]
  | true =>
    rw [if_pos rfl]
    unfold sel pipePerm
    rw [List.length_map, lexsortT_length, pipeCharges1_length]

theorem pipeCharges0_getD (legs : List LegCharge) (qconj : Int) (p : Nat)
    (hp : p < pipeNblocks legs) :
    (pipeCharges0 legs qconj).getD p []
      = (effSum (pipeQn legs) legs ((pipeGrid legs).getD p [])).map
          (fun c => qconj * c) := by
  unfold pipeCharges0
  rw [getD_map _ _ p hp [] []]
  unfold effSum
  rw [List.map_map]
  apply List.map_congr_left
  intro k _
  rw [Function.comp_apply, foldl_charge_sum]
  ring

theorem pipeCharges1_getD (legs : List LegCharge) (qconj : Int)
    (hm : ∀ q ∈ (pipeChinfo legs).mod, 1 ≤ q) (p : Nat)
    (hp : p < pipeNblocks legs) :
    (pipeCharges1 legs qconj).getD p []
      = (pipeChinfo legs).make_valid_1D
          ((effSum (pipeQn legs) legs ((pipeGrid legs).getD p [])).map
            (fun c => qconj * c)) := by
  unfold pipeCharges1
  by_cases hq : 0 < pipeQn legs
  · rw [if_pos hq]
    unfold ChargeInfo.make_valid_2D
    rw [getD_map _ _ p (by rw [List.length_map, pipeCharges0_length]; exact hp) [] [],
      getD_map _ _ p (by rw [pipeCharges0_length]; exact hp) [] [],
      pipeCharges0_getD legs qconj p hp,
      make_valid_1D_idem (pipeChinfo legs) hm]
  · rw [if_neg hq, pipeCharges0_getD legs qconj p hp]
    have hq0 : pipeQn legs = 0 := by omega
    unfold effSum
    rw [hq0]
    simp [ChargeInfo.make_valid_1D]

theorem effSum_two (qn : Nat) (l0 l1 : LegCharge) (i j : Nat)
    (h0 : (l0.charges.getD i []).length = qn)
    (h1 : (l1.charges.getD j []).length = qn) :
    effSum qn [l0, l1] [i, j]
      = List.zipWith (· + ·) (l0.get_charge i) (l1.get_charge j) := by
  have heff : effSum qn [l0, l1] [i, j] = (List.range qn).map (fun k =>
      l0.qconj * ((l0.charges.getD i []).getD k 0)
        + (l1.qconj * ((l1.charges.getD j []).getD k 0) + 0)) := rfl
  apply List.ext_getElem?
  intro k
  by_cases hk : k < qn
  · rw [heff, List.getElem?_map, List.getElem?_range hk]
    unfold LegCharge.get_charge
    rw [List.getElem?_zipWith, List.getElem?_map, List.getElem?_map,
      List.getElem?_eq_getElem (show k < (l0.charges.getD i []).length by omega),
      List.getElem?_eq_getElem (show k < (l1.charges.getD j []).length by omega)]
    simp only [Option.map_some']
    congr 1
    rw [← List.getD_eq_getElem (l0.charges.getD i []) 0
        (show k < (l0.charges.getD i []).length by omega),
      ← List.getD_eq_getElem (l1.charges.getD j []) 0
        (show k < (l1.charges.getD j []).length by omega)]
    ring
  · rw [List.getElem?_eq_none (by
        rw [heff, List.length_map, List.length_range]; omega),
      List.getElem?_eq_none (by
        rw [List.length_zipWith]
        unfold LegCharge.get_charge
        rw [List.length_map, List.length_map, h0, h1]
        simp
        omega)]

/-- C1: the charge-fusion rule.  For every `LegPipe` built from incoming legs
sharing one `ChargeInfo` (with all moduli ≥ 1 and well-shaped charge rows),
every row of the fusion table `q_map` carries `nlegs` incoming qindices, and
the fused block's stored charge is the modulus-reduced sum of the incoming
blocks' effective charges (`charges[i_l] * qconj_l`), the whole sum multiplied
by the pipe's own `qconj` — for any combination of the `sort`/`bunch` flags.
In particular, for a pipe over two legs with block counts `(2, 3)` the fusion
table has `6` rows (the pre-bunch block number), and in the unsorted,
unbunched table the row of the combination `(i, j)` sits at position
`3*i + j` and carries `reduce(qconj * (legs[0].charge(i) + legs[1].charge(j)))`. -/
theorem C1_pipe_fusion (legs : List LegCharge) (qconj : Int) (srt bnch : Bool)
    (hch : ∀ l ∈ legs, l.chinfo = pipeChinfo legs)
    (hm : ∀ q ∈ (pipeChinfo legs).mod, 1 ≤ q)
    (hrows : ∀ l ∈ legs, ∀ r ∈ l.charges, r.length = pipeQn legs) :
    ((makeLegPipe legs qconj srt bnch).q_map.length
        = (legs.map (·.block_number)).prod) ∧
    (∀ t, t < (makeLegPipe legs qconj srt bnch).q_map.length →
      ((makeLegPipe legs qconj srt bnch).q_map.getD t default).inds.length
          = legs.length ∧
      (makeLegPipe legs qconj srt bnch).base.charges.getD
          ((makeLegPipe legs qconj srt bnch).q_map.getD t default).fused []
        = (pipeChinfo legs).make_valid_1D
            ((effSum (pipeQn legs) legs
                ((makeLegPipe legs qconj srt bnch).q_map.getD t default).inds).map
              (fun c => qconj * c))) ∧
    (∀ l0 l1, legs = [l0, l1] → l0.block_number = 2 → l1.block_number = 3 →
      (makeLegPipe legs qconj srt bnch).q_map.length = 6 ∧
      ∀ i j, i < 2 → j < 3 →
        (makeLegPipe legs qconj false false).base.charges.getD (3 * i + j) []
          = (pipeChinfo legs).make_valid_1D
              ((List.zipWith (· + ·) (l0.get_charge i) (l1.get_charge j)).map
                (fun c => qconj * c))) := by
  have hqmlen : ∀ (s b : Bool), (makeLegPipe legs qconj s b).q_map.length
      = pipeNblocks legs := by
    intro s b
    show (List.map _ (List.range (pipeNblocks legs))).length = _
    rw [List.length_map, List.length_range]
  have hrowD : ∀ (s b : Bool) (t : Nat), t < pipeNblocks legs →
      (makeLegPipe legs qconj s b).q_map.getD t default
        = { b0 := (pipeSlices0 legs qconj s).getD t 0
              - (pipeSlicesF legs qconj s b).getD (pipeFusedOf legs qconj s b t) 0,
            b1 := (pipeSlices0 legs qconj s).getD (t + 1) 0
              - (pipeSlicesF legs qconj s b).getD (pipeFusedOf legs qconj s b t) 0,
            inds := (pipeGridS legs qconj s).getD t [],
            fused := pipeFusedOf legs qconj s b t } := by
    intro s b t ht
    show (List.map _ (List.range (pipeNblocks legs))).getD t default = _
    rw [getD_map _ _ t (by rw [List.length_range]; exact ht) 0 default]
    have hr : (List.range (pipeNblocks legs)).getD t 0 = t := by
      rw [List.getD_eq_getElem _ 0 (by simpa using ht)]
      simp
    rw [hr]
  refine ⟨?_, ?_, ?_⟩
  · rw [hqmlen]
    unfold pipeNblocks pipeGrid
    exact gridRows_length _
  · intro t ht
    rw [hqmlen] at ht
    rw [hrowD srt bnch t ht]
    obtain ⟨p, hp, hgp, hcp⟩ : ∃ p, p < pipeNblocks legs ∧
        (pipeGridS legs qconj srt).getD t [] = (pipeGrid legs).getD p [] ∧
        (pipeCharges2 legs qconj srt).getD t []
          = (pipeCharges1 legs qconj).getD p [] := by
      cases srt with
      | false =>
        refine ⟨t, ht, ?_, ?_⟩
        · unfold pipeGridS
          rw [if_neg (by simp)]
        · unfold pipeCharges2
          rw [if_neg (by simp)]
      | true =>
        have hpl : t < (pipePerm legs qconj).length := by
          unfold pipePerm
          rw [lexsortT_length, pipeCharges1_length]
          exact ht
        refine ⟨(pipePerm legs qconj).getD t 0, ?_, ?_, ?_⟩
        · unfold pipePerm
          have := lexsortT_getD_lt (pipeCharges1 legs qconj) (pipeQn legs) t
            (by rw [pipeCharges1_length]; exact ht)
          rwa [pipeCharges1_length] at this
        · unfold pipeGridS
          rw [if_pos rfl]
          exact sel_getD _ _ _ _ hpl
        · unfold pipeCharges2
          rw [if_pos rfl]
          exact sel_getD _ _ _ _ hpl
    have hmem : (pipeGrid legs).getD p [] ∈ pipeGrid legs := by
      rw [List.getD_eq_getElem _ [] (show p < (pipeGrid legs).length from hp)]
      exact List.getElem_mem _
    constructor
    · show ((pipeGridS legs qconj srt).getD t []).length = legs.length
      rw [hgp]
      rw [gridRows_mem_length (legs.map (·.block_number)) _ hmem, List.length_map]
    · show (pipeChargesF legs qconj srt bnch).getD (pipeFusedOf legs qconj srt bnch t) []
          = _
      cases bnch with
      | false =>
        unfold pipeChargesF pipeFusedOf
        rw [if_neg (by simp), if_neg (by simp)]
        rw [hcp, pipeCharges1_getD legs qconj hm p hp, hgp]
      | true =>
        unfold pipeChargesF pipeFusedOf pipeIdx
        rw [if_pos rfl, if_pos rfl]
        rw [runs_getD (pipeCharges2 legs qconj srt) t
          (by rw [pipeCharges2_length]; exact ht)]
        rw [hcp, pipeCharges1_getD legs qconj hm p hp, hgp]
  · intro l0 l1 hlegs hb0 hb1
    subst hlegs
    have hnb : pipeNblocks [l0, l1] = 6 := by
      unfold pipeNblocks pipeGrid
      show (gridRows [l0.block_number, l1.block_number]).length = 6
      rw [hb0, hb1]
      rfl
    constructor
    · rw [hqmlen, hnb]
    · intro i j hi hj
      have hidx : 3 * i + j < pipeNblocks [l0, l1] := by
        rw [hnb]; omega
      have hCF : (makeLegPipe [l0, l1] qconj false false).base.charges
          = pipeCharges1 [l0, l1] qconj := by
        show pipeChargesF [l0, l1] qconj false false = _
        unfold pipeChargesF pipeCharges2
        rw [if_neg (by simp), if_neg (by simp)]
      rw [hCF, pipeCharges1_getD [l0, l1] qconj hm _ hidx]
      have hg : (pipeGrid [l0, l1]).getD (3 * i + j) [] = [i, j] := by
        unfold pipeGrid
        show (gridRows [l0.block_number, l1.block_number]).getD (3 * i + j) [] = [i, j]
        rw [hb0, hb1]
        have hi' : i = 0 ∨ i = 1 := by omega
        have hj' : j = 0 ∨ j = 1 ∨ j = 2 := by omega
        rcases hi' with rfl | rfl <;> rcases hj' with rfl | rfl | rfl <;> rfl
      rw [hg]
      have hlen0 : l0.charges.length = 2 := hb0
      have hlen1 : l1.charges.length = 3 := hb1
      have hrl0 : (l0.charges.getD i []).length = pipeQn [l0, l1] := by
        apply hrows l0 (by simp)
        rw [List.getD_eq_getElem _ [] (by omega)]
        exact List.getElem_mem _
      have hrl1 : (l1.charges.getD j []).length = pipeQn [l0, l1] := by
        apply hrows l1 (by simp)
        rw [List.getD_eq_getElem _ [] (by omega)]
        exact List.getElem_mem _
      rw [effSum_two (pipeQn [l0, l1]) l0 l1 i j hrl0 hrl1]

def legP2 : LegCharge :=
  { chinfo := { mod := [2], names := [""] },
    slices := [0, 1, 2, 3], charges := [[0], [1], [0]],
    qconj := 1, sorted := false, bunched := false }

theorem C1_witness :
    (∀ l ∈ [legP0, legP2], l.chinfo = pipeChinfo [legP0, legP2]) ∧
    (∀ q ∈ (pipeChinfo [legP0, legP2]).mod, 1 ≤ q) ∧
    (∀ l ∈ [legP0, legP2], ∀ r ∈ l.charges, r.length = pipeQn [legP0, legP2]) ∧
    (((makeLegPipe [legP0, legP2] (-1) true true).q_map.length
        = ([legP0, legP2].map (·.block_number)).prod) ∧
    (∀ t, t < (makeLegPipe [legP0, legP2] (-1) true true).q_map.length →
      ((makeLegPipe [legP0, legP2] (-1) true true).q_map.getD t default).inds.length
          = [legP0, legP2].length ∧
      (makeLegPipe [legP0, legP2] (-1) true true).base.charges.getD
          ((makeLegPipe [legP0, legP2] (-1) true true).q_map.getD t default).fused []
        = (pipeChinfo [legP0, legP2]).make_valid_1D
            ((effSum (pipeQn [legP0, legP2]) [legP0, legP2]
                ((makeLegPipe [legP0, legP2] (-1) true true).q_map.getD t default).inds).map
              (fun c => (-1 : Int) * c))) ∧
    (∀ l0 l1, [legP0, legP2] = [l0, l1] → l0.block_number = 2 → l1.block_number = 3 →
      (makeLegPipe [legP0, legP2] (-1) true true).q_map.length = 6 ∧
      ∀ i j, i < 2 → j < 3 →
        (makeLegPipe [legP0, legP2] (-1) false false).base.charges.getD (3 * i + j) []
          = (pipeChinfo [legP0, legP2]).make_valid_1D
              ((List.zipWith (· + ·) (l0.get_charge i) (l1.get_charge j)).map
                (fun c => (-1 : Int) * c)))) :=
  ⟨by decide, by decide, by decide,
    C1_pipe_fusion [legP0, legP2] (-1) true true (by decide) (by decide) (by decide)⟩
